import Mathlib

/-!
# Dromajo manycore FIFO bridge

A shallow embedding of `src/dromajo_manycore.cpp` and `include/dromajo_manycore.h`.

* `uint32_t` values (offsets, words, sizes) are natural numbers; the one place where a wider
  value is narrowed to `uint32_t` (`get_fifo_size`) reduces modulo `2 ^ 32 = 4294967296`.
* `std::vector` is a `List`, indexed with `[k]?`; an index outside the vector is undefined
  behaviour in C++ and is the outcome `Outcome.undefined` here.
* `std::queue<uint32_t>` is a `List Nat` whose head is the front of the queue.
* `exit(-1)` is the outcome `Outcome.exited`, which records the memory at the time of the call.
* `std::map::operator[]` inserts a value-initialised entry for a missing key, so the
  file-static `index_map` is part of the mutable memory.
* `FIFO_MAX_ELEMENTS` is not defined in the two source files; it is the parameter `C`.
* What `printf` writes is not part of the model.
-/

namespace Dromajo

/-! ## Outcomes -/

/-- Result of running a function on a memory of type `σ`: it returns a value and a memory,
or the process exits (`exit(-1)`) with the memory it had, or the behaviour is undefined. -/
inductive Outcome (σ α : Type) where
  | ret (a : α) (s : σ)
  | exited (s : σ)
  | undefined
  deriving DecidableEq

/-- Sequencing of two computations. -/
def Outcome.bind {σ α β : Type} (x : Outcome σ α) (k : α → σ → Outcome σ β) : Outcome σ β :=
  match x with
  | .ret a s => k a s
  | .exited s => .exited s
  | .undefined => .undefined

/-! ## The header -/

/-- The constant `MAX_CREDITS`. -/
def MAX_CREDITS : Int := 15

/-- Enumerator `FIFO_HOST_TO_MC_REQ` of `mc_fifo_type_t`. -/
def FIFO_HOST_TO_MC_REQ : Nat := 0

/-- Enumerator `FIFO_MC_TO_HOST_REQ` of `mc_fifo_type_t`. -/
def FIFO_MC_TO_HOST_REQ : Nat := 1

/-- Enumerator `FIFO_MC_TO_HOST_RESP` of `mc_fifo_type_t`. -/
def FIFO_MC_TO_HOST_RESP : Nat := 2

/-- The struct `mc_fifo_t`: four 32-bit queues, the init flag, the full vector, the credits. -/
structure mc_fifo_t where
  fifo : List (List Nat)
  init : Bool
  full : List Bool
  credits : Int
  deriving DecidableEq

/-- A `std::map<uint32_t, int>` as a key-ordered association list. The values that occur are
the four lane indices and the value-initialised `0`, so they are kept as naturals. -/
abbrev IndexMap := List (Nat × Nat)

/-- The static initialiser of `index_map`. -/
def index_map : IndexMap := [(0x0, 0), (0x4, 1), (0x8, 2), (0xc, 3)]

/-- Insertion of a new key into the key-ordered list. -/
def map_insert (k v : Nat) : IndexMap → IndexMap
  | [] => [(k, v)]
  | (k1, v1) :: rest =>
    if k < k1 then (k, v) :: (k1, v1) :: rest else (k1, v1) :: map_insert k v rest

/-- The operator `std::map::operator[]`: the mapped value of `k`; a missing key is first
inserted with the value-initialised `int`, which is `0`. -/
def map_index (m : IndexMap) (k : Nat) : Nat × IndexMap :=
  match m.lookup k with
  | some v => (v, m)
  | none => (0, map_insert k 0 m)

/-- What a function that is handed an `mc_fifo_t *` can touch: the pointee and the
file-static `index_map`. -/
structure Mem where
  index_map : IndexMap
  fifo : mc_fifo_t
  deriving DecidableEq

/-! ## The functions of `dromajo_manycore.cpp` -/

/-- One iteration of the loop of `mc_fifo_init`. -/
def mc_fifo_init_body (f : mc_fifo_t) (i : Nat) : Option mc_fifo_t :=
  if i < f.fifo.length then
    if i < f.full.length then
      some { f with fifo := f.fifo.set i [], full := f.full.set i false }
    else none
  else none

/-- The function `mc_fifo_init`. -/
def mc_fifo_init (s : Mem) : Outcome Mem Unit :=
  match [0, 1, 2, 3].foldlM mc_fifo_init_body s.fifo with
  | none => .undefined
  | some f => .ret () ⟨s.index_map, { f with credits := MAX_CREDITS, init := true }⟩

/-- The function `get_fifo_empty`. -/
def get_fifo_empty (s : Mem) (_empty : Bool) (fifo_id : Nat) : Outcome Mem Bool :=
  if _empty then
    let (k, m) := map_index s.index_map fifo_id
    match s.fifo.fifo[k]? with
    | none => .undefined
    | some q => .ret q.isEmpty ⟨m, s.fifo⟩
  else
    .ret (s.fifo.fifo.foldl (fun is_empty q => is_empty && q.isEmpty) true) s

/-- The function `get_fifo_size`; the `size_t` size is narrowed to `uint32_t`. -/
def get_fifo_size (s : Mem) (fifo_id : Nat) : Outcome Mem Nat :=
  let (k, m) := map_index s.index_map fifo_id
  match s.fifo.fifo[k]? with
  | none => .undefined
  | some q => .ret (q.length % 4294967296) ⟨m, s.fifo⟩

/-- The function `get_fifo_full`. -/
def get_fifo_full (s : Mem) (_full : Bool) (fifo_id : Nat) : Outcome Mem Bool :=
  if _full then
    let (k, m) := map_index s.index_map fifo_id
    match s.fifo.full[k]? with
    | none => .undefined
    | some b => .ret b ⟨m, s.fifo⟩
  else
    .ret (s.fifo.full.foldl (fun is_full b => is_full && b) true) s

/-- The function `set_fifo_full`, with `FIFO_MAX_ELEMENTS = C`. -/
def set_fifo_full (C : Nat) (s : Mem) (fifo_id : Nat) : Outcome Mem Unit :=
  (get_fifo_size s fifo_id).bind fun fifo_size s1 =>
    let (k, m) := map_index s1.index_map fifo_id
    if k < s1.fifo.full.length then
      if fifo_size = C then
        .ret () ⟨m, { s1.fifo with full := s1.fifo.full.set k true }⟩
      else
        .ret () ⟨m, { s1.fifo with full := s1.fifo.full.set k false }⟩
    else .undefined

/-- The function `get_fifo_credits`. -/
def get_fifo_credits (s : Mem) : Outcome Mem Int :=
  .ret s.fifo.credits s

/-- The function `fifo_write`, with `FIFO_MAX_ELEMENTS = C`. -/
def fifo_write (C : Nat) (s : Mem) (fifo_id val : Nat) : Outcome Mem Bool :=
  let is_fifo_init := s.fifo.init
  if !is_fifo_init then .exited s
  else
    (get_fifo_full s true fifo_id).bind fun is_fifo_full s1 =>
      if is_fifo_full then .ret false s1
      else
        let (k, m) := map_index s1.index_map fifo_id
        match s1.fifo.fifo[k]? with
        | none => .undefined
        | some q =>
          (set_fifo_full C ⟨m, { s1.fifo with fifo := s1.fifo.fifo.set k (q ++ [val]) }⟩
            fifo_id).bind fun _ s2 => .ret true s2

/-- The function `fifo_read`, with `FIFO_MAX_ELEMENTS = C`. The argument `val` is the word
that `*val` holds at the call; the result carries the word it holds at the return. -/
def fifo_read (C : Nat) (s : Mem) (fifo_id val : Nat) : Outcome Mem (Bool × Nat) :=
  let is_fifo_init := s.fifo.init
  if !is_fifo_init then .exited s
  else
    (get_fifo_empty s true fifo_id).bind fun is_fifo_empty s1 =>
      if is_fifo_empty then .ret (false, val) s1
      else
        let (k, m) := map_index s1.index_map fifo_id
        match s1.fifo.fifo[k]? with
        | none => .undefined
        | some [] => .undefined
        | some (front :: _) =>
          let (k2, m2) := map_index m fifo_id
          match s1.fifo.fifo[k2]? with
          | none => .undefined
          | some [] => .undefined
          | some (_ :: rest) =>
            (set_fifo_full C ⟨m2, { s1.fifo with fifo := s1.fifo.fifo.set k2 rest }⟩
              fifo_id).bind fun _ s2 => .ret (true, front) s2

/-! ## The three channels and the dispatching functions -/

/-- Modelled from the spec: the objects behind the extern pointers `host_to_mc_req_fifo`,
`mc_to_host_req_fifo` and `mc_to_host_resp_fifo`, whose definitions are not in the two source
files. The spec describes them as three independent singletons, so they are three separate
fields next to the file-static `index_map`. -/
structure Globals where
  index_map : IndexMap
  host_to_mc_req_fifo : mc_fifo_t
  mc_to_host_req_fifo : mc_fifo_t
  mc_to_host_resp_fifo : mc_fifo_t
  deriving DecidableEq

/-- A call with the argument `host_to_mc_req_fifo`. -/
def with_host_to_mc_req {α : Type} (g : Globals) (op : Mem → Outcome Mem α) :
    Outcome Globals α :=
  match op ⟨g.index_map, g.host_to_mc_req_fifo⟩ with
  | .ret a s => .ret a { g with index_map := s.index_map, host_to_mc_req_fifo := s.fifo }
  | .exited s => .exited { g with index_map := s.index_map, host_to_mc_req_fifo := s.fifo }
  | .undefined => .undefined

/-- A call with the argument `mc_to_host_req_fifo`. -/
def with_mc_to_host_req {α : Type} (g : Globals) (op : Mem → Outcome Mem α) :
    Outcome Globals α :=
  match op ⟨g.index_map, g.mc_to_host_req_fifo⟩ with
  | .ret a s => .ret a { g with index_map := s.index_map, mc_to_host_req_fifo := s.fifo }
  | .exited s => .exited { g with index_map := s.index_map, mc_to_host_req_fifo := s.fifo }
  | .undefined => .undefined

/-- A call with the argument `mc_to_host_resp_fifo`. -/
def with_mc_to_host_resp {α : Type} (g : Globals) (op : Mem → Outcome Mem α) :
    Outcome Globals α :=
  match op ⟨g.index_map, g.mc_to_host_resp_fifo⟩ with
  | .ret a s => .ret a { g with index_map := s.index_map, mc_to_host_resp_fifo := s.fifo }
  | .exited s => .exited { g with index_map := s.index_map, mc_to_host_resp_fifo := s.fifo }
  | .undefined => .undefined

/-- The function `mc_is_fifo_full`. -/
def mc_is_fifo_full (g : Globals) (type : Nat) (_full : Bool) (fifo_id : Nat) :
    Outcome Globals Bool :=
  if type = FIFO_HOST_TO_MC_REQ then
    with_host_to_mc_req g fun s => get_fifo_full s _full fifo_id
  else if type = FIFO_MC_TO_HOST_REQ then
    with_mc_to_host_req g fun s => get_fifo_full s _full fifo_id
  else if type = FIFO_MC_TO_HOST_RESP then
    with_mc_to_host_resp g fun s => get_fifo_full s _full fifo_id
  else .exited g

/-- The function `mc_fifo_write`, with `FIFO_MAX_ELEMENTS = C`. -/
def mc_fifo_write (C : Nat) (g : Globals) (type fifo_id val : Nat) : Outcome Globals Bool :=
  if type = FIFO_HOST_TO_MC_REQ then
    with_host_to_mc_req g fun s => fifo_write C s fifo_id val
  else if type = FIFO_MC_TO_HOST_REQ then
    with_mc_to_host_req g fun s => fifo_write C s fifo_id val
  else if type = FIFO_MC_TO_HOST_RESP then
    with_mc_to_host_resp g fun s => fifo_write C s fifo_id val
  else .exited g

/-- The function `mc_fifo_read`, with `FIFO_MAX_ELEMENTS = C`. -/
def mc_fifo_read (C : Nat) (g : Globals) (type fifo_id val : Nat) :
    Outcome Globals (Bool × Nat) :=
  if type = FIFO_HOST_TO_MC_REQ then
    with_host_to_mc_req g fun s => fifo_read C s fifo_id val
  else if type = FIFO_MC_TO_HOST_REQ then
    with_mc_to_host_req g fun s => fifo_read C s fifo_id val
  else if type = FIFO_MC_TO_HOST_RESP then
    with_mc_to_host_resp g fun s => fifo_read C s fifo_id val
  else .exited g

/-- The function `mc_fifo_get_credits`. Its local `int credits;` has no initialiser; the
argument `credits` is the indeterminate value the local starts with. Only the first case
assigns it; the second and third case print a message and leave the switch. -/
def mc_fifo_get_credits (g : Globals) (type : Nat) (credits : Int) : Outcome Globals Int :=
  if type = FIFO_HOST_TO_MC_REQ then
    with_host_to_mc_req g fun s => get_fifo_credits s
  else if type = FIFO_MC_TO_HOST_REQ ∨ type = FIFO_MC_TO_HOST_RESP then
    .ret credits g
  else .exited g

/-! ## Vocabulary of the properties -/

/-- The four canonical lane offsets `0x0`, `0x4`, `0x8`, `0xc`. -/
def canonical : List Nat := [0x0, 0x4, 0x8, 0xc]

/-- The index map sends each canonical offset `o` to lane `o / 4`. -/
def index_map_ok (m : IndexMap) : Prop := ∀ o ∈ canonical, m.lookup o = some (o / 4)

instance (m : IndexMap) : Decidable (index_map_ok m) := by
  unfold index_map_ok; infer_instance

/-- Every entry of the index map under a key that is not canonical has the value `0`, as the
entries that `std::map::operator[]` adds have. -/
def index_map_extra_zero (m : IndexMap) : Prop := ∀ e ∈ m, e.1 ∉ canonical → e.2 = 0

instance (m : IndexMap) : Decidable (index_map_extra_zero m) := by
  unfold index_map_extra_zero; infer_instance

/-- A channel object has four lanes and four fullness flags. -/
def four_lanes (f : mc_fifo_t) : Prop := f.fifo.length = 4 ∧ f.full.length = 4

instance (f : mc_fifo_t) : Decidable (four_lanes f) := by
  unfold four_lanes; infer_instance

/-- Memories reachable from a return of `mc_fifo_init` by calls of `fifo_write` and
`fifo_read` with canonical offsets that return. -/
inductive Reachable (C : Nat) : Mem → Prop where
  | init (s0 s : Mem) (hm : index_map_ok s0.index_map)
      (h : mc_fifo_init s0 = .ret () s) : Reachable C s
  | write (s s1 : Mem) (o v : Nat) (b : Bool) (hs : Reachable C s) (ho : o ∈ canonical)
      (h : fifo_write C s o v = .ret b s1) : Reachable C s1
  | read (s s1 : Mem) (o val : Nat) (r : Bool × Nat) (hs : Reachable C s) (ho : o ∈ canonical)
      (h : fifo_read C s o val = .ret r s1) : Reachable C s1

/-- The invariant of reachable memories: the canonical offsets resolve, the channel is
initialised, none of the four lanes holds more than `C` words and a flag is set exactly when
its lane holds `C` words. -/
def Inv (C : Nat) (s : Mem) : Prop :=
  index_map_ok s.index_map ∧ s.fifo.init = true ∧
    ∀ i, i < 4 → ∃ q b, s.fifo.fifo[i]? = some q ∧ s.fifo.full[i]? = some b ∧
      q.length ≤ C ∧ (b = true ↔ q.length = C)

/-- A test driver: the words `ws` are written to offset `o` one after the other; the results
of the calls are collected. -/
def write_all (C o : Nat) : List Nat → Mem → Outcome Mem (List Bool)
  | [], s => .ret [] s
  | w :: ws, s =>
    (fifo_write C s o w).bind fun b s1 =>
      (write_all C o ws s1).bind fun bs s2 => .ret (b :: bs) s2

/-- A test driver: `n` reads from offset `o` one after the other into the same word, which
holds `val` at the start; the result and the word read are collected for each call. -/
def read_all (C o : Nat) : Nat → Nat → Mem → Outcome Mem (List (Bool × Nat))
  | 0, _, s => .ret [] s
  | n + 1, val, s =>
    (fifo_read C s o val).bind fun r s1 =>
      (read_all C o n r.2 s1).bind fun rs s2 => .ret (r :: rs) s2

/-- In a reachable memory, for any capacity `1 ≤ C`: the canonical offsets resolve, the
channel is initialised, and a flag is set exactly when the size of its lane, narrowed to
`uint32_t`, is `C`. -/
def FlagInv (C : Nat) (s : Mem) : Prop :=
  index_map_ok s.index_map ∧ s.fifo.init = true ∧
    ∀ i, i < 4 → ∃ q b, s.fifo.fifo[i]? = some q ∧ s.fifo.full[i]? = some b ∧
      (b = true ↔ q.length % 4294967296 = C)

/-- The memories of the whole program that are reachable from a return of `mc_fifo_init` on
the host-to-manycore request channel by calls of `mc_fifo_write`, `mc_fifo_read`,
`mc_is_fifo_full` and of `get_fifo_empty` (which has no dispatching function and is called on
one of the three channels), with any arguments, that return. -/
inductive GReachable (C : Nat) : Globals → Prop where
  | init (g0 g : Globals) (h : with_host_to_mc_req g0 mc_fifo_init = .ret () g) :
      GReachable C g
  | write (g g1 : Globals) (type fifo_id val : Nat) (b : Bool) (hg : GReachable C g)
      (h : mc_fifo_write C g type fifo_id val = .ret b g1) : GReachable C g1
  | read (g g1 : Globals) (type fifo_id val : Nat) (r : Bool × Nat) (hg : GReachable C g)
      (h : mc_fifo_read C g type fifo_id val = .ret r g1) : GReachable C g1
  | full (g g1 : Globals) (type : Nat) (_full : Bool) (fifo_id : Nat) (b : Bool)
      (hg : GReachable C g) (h : mc_is_fifo_full g type _full fifo_id = .ret b g1) :
      GReachable C g1
  | empty_host_to_mc_req (g g1 : Globals) (_empty : Bool) (fifo_id : Nat) (b : Bool)
      (hg : GReachable C g)
      (h : with_host_to_mc_req g (fun s => get_fifo_empty s _empty fifo_id) = .ret b g1) :
      GReachable C g1
  | empty_mc_to_host_req (g g1 : Globals) (_empty : Bool) (fifo_id : Nat) (b : Bool)
      (hg : GReachable C g)
      (h : with_mc_to_host_req g (fun s => get_fifo_empty s _empty fifo_id) = .ret b g1) :
      GReachable C g1
  | empty_mc_to_host_resp (g g1 : Globals) (_empty : Bool) (fifo_id : Nat) (b : Bool)
      (hg : GReachable C g)
      (h : with_mc_to_host_resp g (fun s => get_fifo_empty s _empty fifo_id) = .ret b g1) :
      GReachable C g1

/-- The channel object of a direction. -/
def channel (g : Globals) (type : Nat) : mc_fifo_t :=
  if type = FIFO_HOST_TO_MC_REQ then g.host_to_mc_req_fifo
  else if type = FIFO_MC_TO_HOST_REQ then g.mc_to_host_req_fifo
  else g.mc_to_host_resp_fifo

/-- The memory of the whole program after a channel-level call on the channel of direction
`type` has left the memory `s`: the index map and that channel are those of `s`. -/
def set_channel (g : Globals) (type : Nat) (s : Mem) : Globals :=
  if type = FIFO_HOST_TO_MC_REQ then
    { g with index_map := s.index_map, host_to_mc_req_fifo := s.fifo }
  else if type = FIFO_MC_TO_HOST_REQ then
    { g with index_map := s.index_map, mc_to_host_req_fifo := s.fifo }
  else
    { g with index_map := s.index_map, mc_to_host_resp_fifo := s.fifo }

/-- The outcome of a channel-level call, seen in the memory of the whole program. -/
def Outcome.lift {α : Type} (g : Globals) (type : Nat) : Outcome Mem α → Outcome Globals α
  | .ret a s => .ret a (set_channel g type s)
  | .exited s => .exited (set_channel g type s)
  | .undefined => .undefined

/-- A call on one lane: a write of a word or a read. -/
inductive LaneCall where
  | write (v : Nat)
  | read
  deriving DecidableEq

/-- A test driver: the calls are made one after the other with offset `o`; the reads share
one output word, which holds `val` at the start. Each call is recorded with its result. -/
def run_calls (C o : Nat) : List LaneCall → Nat → Mem → Outcome Mem (List (LaneCall × Bool))
  | [], _, s => .ret [] s
  | .write v :: cs, val, s =>
    (fifo_write C s o v).bind fun b s1 =>
      (run_calls C o cs val s1).bind fun tr s2 => .ret ((.write v, b) :: tr) s2
  | .read :: cs, val, s =>
    (fifo_read C s o val).bind fun r s1 =>
      (run_calls C o cs r.2 s1).bind fun tr s2 => .ret ((.read, r.1) :: tr) s2

/-- The number of writes in a record that returned true. -/
def writes_ok : List (LaneCall × Bool) → Nat
  | [] => 0
  | (.write _, true) :: tr => writes_ok tr + 1
  | _ :: tr => writes_ok tr

/-- The number of reads in a record that returned true. -/
def reads_ok : List (LaneCall × Bool) → Nat
  | [] => 0
  | (.read, true) :: tr => reads_ok tr + 1
  | _ :: tr => reads_ok tr

end Dromajo

namespace Dromajo

/-! ## Lemmas on the index map -/

theorem lookup_map_insert_self (k v : Nat) (m : IndexMap) (h : m.lookup k = none) :
    (map_insert k v m).lookup k = some v := by
  induction m with
  | nil => simp [map_insert, List.lookup]
  | cons e rest ih =>
    obtain ⟨k1, v1⟩ := e
    by_cases hk : k = k1
    · subst hk
      simp [List.lookup] at h
    · have hne : (k == k1) = false := by simpa using hk
      have hrest : rest.lookup k = none := by
        simpa [List.lookup, hne] using h
      by_cases hlt : k < k1
      · simp [map_insert, hlt, List.lookup]
      · simp [map_insert, hlt, List.lookup, hne, ih hrest]

theorem map_index_again {m m1 : IndexMap} {o k : Nat} (h : map_index m o = (k, m1)) :
    map_index m1 o = (k, m1) := by
  unfold map_index at h
  cases hl : m.lookup o with
  | some v =>
    rw [hl] at h
    simp only [Prod.mk.injEq] at h
    obtain ⟨rfl, rfl⟩ := h
    simp [map_index, hl]
  | none =>
    rw [hl] at h
    simp only [Prod.mk.injEq] at h
    obtain ⟨rfl, rfl⟩ := h
    simp [map_index, lookup_map_insert_self o 0 m hl]

theorem map_index_ok {m : IndexMap} {o : Nat} (hm : index_map_ok m) (ho : o ∈ canonical) :
    map_index m o = (o / 4, m) := by
  simp [map_index, hm o ho]

/-! ## What the functions compute once the lane is resolved -/

theorem get_fifo_full_lane {m m1 : IndexMap} {f : mc_fifo_t} {o k : Nat} {b : Bool}
    (hk : map_index m o = (k, m1)) (hb : f.full[k]? = some b) :
    get_fifo_full ⟨m, f⟩ true o = .ret b ⟨m1, f⟩ := by
  simp [get_fifo_full, hk, hb]

theorem get_fifo_empty_lane {m m1 : IndexMap} {f : mc_fifo_t} {o k : Nat} {q : List Nat}
    (hk : map_index m o = (k, m1)) (hq : f.fifo[k]? = some q) :
    get_fifo_empty ⟨m, f⟩ true o = .ret q.isEmpty ⟨m1, f⟩ := by
  simp [get_fifo_empty, hk, hq]

theorem get_fifo_size_lane {m m1 : IndexMap} {f : mc_fifo_t} {o k : Nat} {q : List Nat}
    (hk : map_index m o = (k, m1)) (hq : f.fifo[k]? = some q) :
    get_fifo_size ⟨m, f⟩ o = .ret (q.length % 4294967296) ⟨m1, f⟩ := by
  simp [get_fifo_size, hk, hq]

theorem set_fifo_full_lane (C : Nat) {m m1 : IndexMap} {f : mc_fifo_t} {o k : Nat}
    {q : List Nat} (hk : map_index m o = (k, m1)) (hq : f.fifo[k]? = some q)
    (hlt : k < f.full.length) :
    set_fifo_full C ⟨m, f⟩ o =
      .ret () ⟨m1, { f with full := f.full.set k (decide (q.length % 4294967296 = C)) }⟩ := by
  have hk1 := map_index_again hk
  by_cases hC : q.length % 4294967296 = C
  · simp [set_fifo_full, get_fifo_size_lane hk hq, Outcome.bind, hk1, hlt, hC]
  · simp [set_fifo_full, get_fifo_size_lane hk hq, Outcome.bind, hk1, hlt, hC]

theorem fifo_write_lane (C : Nat) {m m1 : IndexMap} {f : mc_fifo_t} {o k : Nat}
    {q : List Nat} {b : Bool} (v : Nat) (hk : map_index m o = (k, m1)) (hi : f.init = true)
    (hq : f.fifo[k]? = some q) (hb : f.full[k]? = some b) :
    fifo_write C ⟨m, f⟩ o v =
      if b then .ret false ⟨m1, f⟩
      else .ret true ⟨m1, { f with
        fifo := f.fifo.set k (q ++ [v])
        full := f.full.set k (decide ((q.length + 1) % 4294967296 = C)) }⟩ := by
  have hk1 := map_index_again hk
  obtain ⟨ff, fi, fl, fc⟩ := f
  simp only at hi hq hb
  subst hi
  have hlt : k < fl.length := by
    rcases List.getElem?_eq_some.1 hb with ⟨h, _⟩
    exact h
  have hlq : k < ff.length := by
    rcases List.getElem?_eq_some.1 hq with ⟨h, _⟩
    exact h
  have hg := get_fifo_full_lane (f := ⟨ff, true, fl, fc⟩) hk hb
  cases b with
  | true => simp [fifo_write, hg, Outcome.bind]
  | false =>
    have hq2 : (ff.set k (q ++ [v]))[k]? = some (q ++ [v]) := by
      simp [List.getElem?_set, hlq]
    have hset := set_fifo_full_lane C (f := ⟨ff.set k (q ++ [v]), true, fl, fc⟩)
      hk1 hq2 hlt
    simp only [List.length_append, List.length_singleton] at hset
    simp [fifo_write, hg, Outcome.bind, hk1, hq, hset]

theorem fifo_read_lane (C : Nat) {m m1 : IndexMap} {f : mc_fifo_t} {o k : Nat}
    {q : List Nat} (val : Nat) (hk : map_index m o = (k, m1)) (hi : f.init = true)
    (hq : f.fifo[k]? = some q) (hlt : k < f.full.length) :
    fifo_read C ⟨m, f⟩ o val =
      match q with
      | [] => .ret (false, val) ⟨m1, f⟩
      | front :: rest => .ret (true, front) ⟨m1, { f with
          fifo := f.fifo.set k rest
          full := f.full.set k (decide (rest.length % 4294967296 = C)) }⟩ := by
  have hk1 := map_index_again hk
  obtain ⟨ff, fi, fl, fc⟩ := f
  simp only at hi hq hlt
  subst hi
  have hlq : k < ff.length := by
    rcases List.getElem?_eq_some.1 hq with ⟨h, _⟩
    exact h
  have hg := get_fifo_empty_lane (f := ⟨ff, true, fl, fc⟩) hk hq
  cases q with
  | nil => simp [fifo_read, hg, Outcome.bind]
  | cons front rest =>
    have hq2 : (ff.set k rest)[k]? = some rest := by
      simp [List.getElem?_set, hlq]
    have hset := set_fifo_full_lane C (f := ⟨ff.set k rest, true, fl, fc⟩)
      hk1 hq2 hlt
    simp [fifo_read, hg, Outcome.bind, hk1, hq, hset]

end Dromajo

namespace Dromajo

/-! ## Initialisation and the invariant -/

theorem list_length_four {α : Type} (l : List α) (h : l.length = 4) :
    ∃ a b c d, l = [a, b, c, d] := by
  match l, h with
  | [a, b, c, d], _ => exact ⟨a, b, c, d, rfl⟩

theorem mc_fifo_init_eq (s : Mem) (h : four_lanes s.fifo) :
    mc_fifo_init s =
      .ret () ⟨s.index_map, ⟨[[], [], [], []], true, [false, false, false, false], 15⟩⟩ := by
  obtain ⟨m, ff, fi, fl, fc⟩ := s
  obtain ⟨h1, h2⟩ := h
  simp only at h1 h2
  obtain ⟨q0, q1, q2, q3, rfl⟩ := list_length_four ff h1
  obtain ⟨b0, b1, b2, b3, rfl⟩ := list_length_four fl h2
  simp [mc_fifo_init, mc_fifo_init_body, List.foldlM, MAX_CREDITS]

/-- A return of `mc_fifo_init` leaves the first four lanes empty with their flags clear. -/
theorem mc_fifo_init_ret {s0 s : Mem} (h : mc_fifo_init s0 = .ret () s) :
    s.index_map = s0.index_map ∧ s.fifo.init = true ∧ s.fifo.credits = 15 ∧
      ∀ i, i < 4 → s.fifo.fifo[i]? = some [] ∧ s.fifo.full[i]? = some false := by
  obtain ⟨m, ff, fi, fl, fc⟩ := s0
  rcases ff with _ | ⟨q0, _ | ⟨q1, _ | ⟨q2, _ | ⟨q3, qs⟩⟩⟩⟩ <;>
    rcases fl with _ | ⟨b0, _ | ⟨b1, _ | ⟨b2, _ | ⟨b3, bs⟩⟩⟩⟩ <;>
    simp [mc_fifo_init, mc_fifo_init_body, List.foldlM, MAX_CREDITS] at h
  subst h
  refine ⟨rfl, rfl, rfl, ?_⟩
  intro i hi
  interval_cases i <;> simp

theorem lane_lt_four {o : Nat} (ho : o ∈ canonical) : o / 4 < 4 := by
  simp only [canonical, List.mem_cons, List.mem_singleton, List.not_mem_nil, or_false] at ho
  rcases ho with rfl | rfl | rfl | rfl <;> decide

theorem inv_init (C : Nat) (hC : 1 ≤ C) {s0 s : Mem} (hm : index_map_ok s0.index_map)
    (h : mc_fifo_init s0 = .ret () s) : Inv C s := by
  obtain ⟨h1, h2, _, h4⟩ := mc_fifo_init_ret h
  refine ⟨h1 ▸ hm, h2, ?_⟩
  intro i hi
  refine ⟨[], false, (h4 i hi).1, (h4 i hi).2, by simp, ?_⟩
  simp only [List.length_nil, Bool.false_eq_true, false_iff]
  omega

theorem inv_write (C : Nat) (hC : C < 4294967296) {s s1 : Mem} {o v : Nat} {b : Bool}
    (hs : Inv C s) (ho : o ∈ canonical) (h : fifo_write C s o v = .ret b s1) : Inv C s1 := by
  obtain ⟨hm, hi, hl⟩ := hs
  obtain ⟨m, f⟩ := s
  simp only at hm hi hl
  obtain ⟨q, fl, hq, hb, hle, hiff⟩ := hl (o / 4) (lane_lt_four ho)
  rw [fifo_write_lane C v (map_index_ok hm ho) hi hq hb] at h
  have hlq : o / 4 < f.fifo.length := (List.getElem?_eq_some.1 hq).1
  have hlf : o / 4 < f.full.length := (List.getElem?_eq_some.1 hb).1
  cases fl with
  | true =>
    simp only [if_true, Outcome.ret.injEq] at h
    rw [← h.2]
    exact ⟨hm, hi, hl⟩
  | false =>
    simp only [Bool.false_eq_true, if_false, Outcome.ret.injEq] at h
    rw [← h.2]
    refine ⟨hm, hi, ?_⟩
    intro i hi4
    have hne : q.length ≠ C := fun hh => by simpa using hiff.2 hh
    by_cases hik : i = o / 4
    · subst hik
      refine ⟨q ++ [v], decide ((q.length + 1) % 4294967296 = C), ?_, ?_, ?_, ?_⟩
      · simp [List.getElem?_set, hlq]
      · simp [List.getElem?_set, hlf]
      · simp only [List.length_append, List.length_singleton]; omega
      · have hmod : (q.length + 1) % 4294967296 = q.length + 1 := by
          apply Nat.mod_eq_of_lt; omega
        simp [hmod]
    · obtain ⟨q2, b2, hq2, hb2, hle2, hiff2⟩ := hl i hi4
      refine ⟨q2, b2, ?_, ?_, hle2, hiff2⟩
      · simpa [List.getElem?_set, Ne.symm hik] using hq2
      · simpa [List.getElem?_set, Ne.symm hik] using hb2

theorem inv_read (C : Nat) (hC : C < 4294967296) {s s1 : Mem} {o val : Nat} {r : Bool × Nat}
    (hs : Inv C s) (ho : o ∈ canonical) (h : fifo_read C s o val = .ret r s1) : Inv C s1 := by
  obtain ⟨hm, hi, hl⟩ := hs
  obtain ⟨m, f⟩ := s
  simp only at hm hi hl
  obtain ⟨q, fl, hq, hb, hle, hiff⟩ := hl (o / 4) (lane_lt_four ho)
  have hlq : o / 4 < f.fifo.length := (List.getElem?_eq_some.1 hq).1
  have hlf : o / 4 < f.full.length := (List.getElem?_eq_some.1 hb).1
  rw [fifo_read_lane C val (map_index_ok hm ho) hi hq hlf] at h
  cases q with
  | nil =>
    simp only [Outcome.ret.injEq] at h
    rw [← h.2]
    exact ⟨hm, hi, hl⟩
  | cons front rest =>
    simp only [Outcome.ret.injEq] at h
    rw [← h.2]
    refine ⟨hm, hi, ?_⟩
    intro i hi4
    simp only [List.length_cons] at hle
    by_cases hik : i = o / 4
    · subst hik
      refine ⟨rest, decide (rest.length % 4294967296 = C), ?_, ?_, ?_, ?_⟩
      · simp [List.getElem?_set, hlq]
      · simp [List.getElem?_set, hlf]
      · omega
      · have hmod : rest.length % 4294967296 = rest.length := by
          apply Nat.mod_eq_of_lt; omega
        simp [hmod]
    · obtain ⟨q2, b2, hq2, hb2, hle2, hiff2⟩ := hl i hi4
      refine ⟨q2, b2, ?_, ?_, hle2, hiff2⟩
      · simpa [List.getElem?_set, Ne.symm hik] using hq2
      · simpa [List.getElem?_set, Ne.symm hik] using hb2

theorem reachable_inv (C : Nat) (hC1 : 1 ≤ C) (hC : C < 4294967296) {s : Mem}
    (hs : Reachable C s) : Inv C s := by
  induction hs with
  | init s0 s hm h => exact inv_init C hC1 hm h
  | write s s1 o v b _ ho h ih => exact inv_write C hC ih ho h
  | read s s1 o val r _ ho h ih => exact inv_read C hC ih ho h

end Dromajo

namespace Dromajo

/-! ## Closed forms on lane 0, and a capacity that does not fit `uint32_t` -/

/-- A write to lane 0 of an initialised channel whose flag 0 is clear, in closed form. -/
theorem fifo_write_lane_zero (C v : Nat) (q q1 q2 q3 : List Nat) (b1 b2 b3 : Bool) (c : Int) :
    fifo_write C ⟨index_map, ⟨[q, q1, q2, q3], true, [false, b1, b2, b3], c⟩⟩ 0 v =
      .ret true ⟨index_map, ⟨[q ++ [v], q1, q2, q3], true,
        [decide ((q.length + 1) % 4294967296 = C), b1, b2, b3], c⟩⟩ := by
  have hk0 : map_index index_map 0 = (0, index_map) := by decide
  rw [fifo_write_lane (f := ⟨[q, q1, q2, q3], true, [false, b1, b2, b3], c⟩) (q := q)
    (b := false) C v hk0 rfl (by simp) (by simp)]
  simp

/-- A read from lane 0 of an initialised channel whose lane 0 is not empty, in closed form. -/
theorem fifo_read_lane_zero (C val front : Nat) (rest q1 q2 q3 : List Nat)
    (b0 b1 b2 b3 : Bool) (c : Int) :
    fifo_read C ⟨index_map, ⟨[front :: rest, q1, q2, q3], true, [b0, b1, b2, b3], c⟩⟩ 0 val =
      .ret (true, front) ⟨index_map, ⟨[rest, q1, q2, q3], true,
        [decide (rest.length % 4294967296 = C), b1, b2, b3], c⟩⟩ := by
  have hk0 : map_index index_map 0 = (0, index_map) := by decide
  rw [fifo_read_lane (f := ⟨[front :: rest, q1, q2, q3], true, [b0, b1, b2, b3], c⟩)
    (q := front :: rest) C val hk0 rfl (by simp) (by simp)]
  simp

/-- With `FIFO_MAX_ELEMENTS = 2 ^ 32` the narrowed size never equals the capacity, so lane 0
can be filled with any number of words while every flag stays clear. -/
theorem reachable_replicate (n : Nat) :
    Reachable 4294967296
      ⟨index_map, ⟨[List.replicate n 0, [], [], []], true, [false, false, false, false], 15⟩⟩ := by
  induction n with
  | zero =>
    exact Reachable.init
      ⟨index_map, ⟨[[], [], [], []], false, [false, false, false, false], 0⟩⟩ _
      (by decide) (by decide)
  | succ n ih =>
    refine Reachable.write _ _ 0 0 true ih (by decide) ?_
    rw [fifo_write_lane_zero]
    have hlt := Nat.mod_lt ((List.replicate n 0).length + 1) (by norm_num : 0 < 4294967296)
    have hmod : ¬ ((List.replicate n 0).length + 1) % 4294967296 = 4294967296 := by omega
    rw [decide_eq_false hmod, List.replicate_succ']

/-! ## Offsets outside the directory -/

theorem lookup_mem {m : IndexMap} {k v : Nat} (h : m.lookup k = some v) : (k, v) ∈ m := by
  induction m with
  | nil => simp [List.lookup] at h
  | cons e rest ih =>
    obtain ⟨k1, v1⟩ := e
    by_cases hk : k = k1
    · subst hk
      simp [List.lookup] at h
      simp [h]
    · have hne : (k == k1) = false := by simpa using hk
      simp only [List.lookup, hne] at h
      exact List.mem_cons_of_mem _ (ih h)

theorem map_index_extra {m : IndexMap} {o : Nat} (hz : index_map_extra_zero m)
    (ho : o ∉ canonical) : map_index m o = (0, (map_index m o).2) := by
  cases hl : m.lookup o with
  | none => simp [map_index, hl]
  | some v =>
    have hv : v = 0 := hz (o, v) (lookup_mem hl) ho
    subst hv
    simp [map_index, hl]

theorem lookup_after_map_index (m : IndexMap) (o : Nat) :
    (map_index m o).2.lookup o = some (map_index m o).1 := by
  cases hl : m.lookup o with
  | none => simp [map_index, hl, lookup_map_insert_self o 0 m hl]
  | some v => simp [map_index, hl]

/-! ## Runs of writes and reads on one lane -/

theorem write_all_lane (C : Nat) {m : IndexMap} {o k : Nat} (hk : map_index m o = (k, m))
    (ws : List Nat) :
    ∀ (f : mc_fifo_t) (q : List Nat), f.init = true → f.fifo[k]? = some q →
      k < f.full.length → (ws ≠ [] → f.full[k]? = some false) → q.length + ws.length ≤ C →
      ∃ f1, write_all C o ws ⟨m, f⟩ = .ret (List.replicate ws.length true) ⟨m, f1⟩ ∧
        f1.init = true ∧ f1.fifo[k]? = some (q ++ ws) ∧ k < f1.full.length := by
  induction ws with
  | nil =>
    intro f q hi hq hlf _ _
    exact ⟨f, rfl, hi, by simpa using hq, hlf⟩
  | cons w ws ih =>
    intro f q hi hq hlf hb hlen
    have hlq : k < f.fifo.length := (List.getElem?_eq_some.1 hq).1
    simp only [List.length_cons] at hlen
    have hw := fifo_write_lane C w hk hi hq (hb (by simp))
    simp only [Bool.false_eq_true, if_false] at hw
    obtain ⟨f1, h1, h2, h3, h4⟩ := ih
      { f with
        fifo := f.fifo.set k (q ++ [w])
        full := f.full.set k (decide ((q.length + 1) % 4294967296 = C)) }
      (q ++ [w]) hi (by simp [List.getElem?_set, hlq]) (by simpa using hlf)
      (by
        intro hne
        have hpos : 0 < ws.length := List.length_pos.2 hne
        have hle : (q.length + 1) % 4294967296 ≤ q.length + 1 := Nat.mod_le _ _
        have hneq : (q.length + 1) % 4294967296 ≠ C := by omega
        simp [List.getElem?_set, hlf, hneq])
      (by simp only [List.length_append, List.length_singleton]; omega)
    refine ⟨f1, ?_, h2, by simpa using h3, h4⟩
    simp [write_all, hw, h1, Outcome.bind, List.replicate_succ]

theorem read_all_lane (C : Nat) {m : IndexMap} {o k : Nat} (hk : map_index m o = (k, m))
    (n : Nat) :
    ∀ (f : mc_fifo_t) (q : List Nat) (val : Nat), f.init = true → f.fifo[k]? = some q →
      k < f.full.length → n ≤ q.length →
      ∃ f1, read_all C o n val ⟨m, f⟩ = .ret ((q.take n).map fun w => (true, w)) ⟨m, f1⟩ := by
  induction n with
  | zero =>
    intro f q val _ _ _ _
    exact ⟨f, by simp [read_all]⟩
  | succ n ih =>
    intro f q val hi hq hlf hlen
    have hlq : k < f.fifo.length := (List.getElem?_eq_some.1 hq).1
    cases q with
    | nil => simp at hlen
    | cons front rest =>
      simp only [List.length_cons, Nat.add_le_add_iff_right] at hlen
      have hr := fifo_read_lane C val hk hi hq hlf
      simp only at hr
      obtain ⟨f1, h1⟩ := ih
        { f with
          fifo := f.fifo.set k rest
          full := f.full.set k (decide (rest.length % 4294967296 = C)) }
        rest front hi (by simp [List.getElem?_set, hlq]) (by simpa using hlf) hlen
      exact ⟨f1, by simp [read_all, hr, h1, Outcome.bind]⟩

/-! ## The claims -/

/-- C1 fails as stated: with capacity `C = 2 ^ 32` the memory in which lane 0 holds `C` words
and every flag is false is reachable, because the size that `set_fifo_full` compares with
`C` has been narrowed to `uint32_t`. -/
theorem C1_counterexample :
    Reachable 4294967296
      ⟨index_map, ⟨[List.replicate 4294967296 0, [], [], []], true,
        [false, false, false, false], 15⟩⟩ ∧
    (List.replicate 4294967296 0).length = 4294967296 :=
  ⟨reachable_replicate 4294967296, List.length_replicate _ _⟩

/-- C1, amended: for a capacity `1 ≤ C < 2 ^ 32`, in every memory reachable from a return of
`mc_fifo_init` by `fifo_write` and `fifo_read` calls with canonical offsets, each of the four
lanes holds at most `C` words and its stored fullness flag is true if and only if it holds
exactly `C` words. -/
theorem C1_lane_bound_and_flag (C : Nat) (hC1 : 1 ≤ C) (hC : C < 2 ^ 32) (s : Mem)
    (hs : Reachable C s) :
    ∀ i, i < 4 → ∃ q b, s.fifo.fifo[i]? = some q ∧ s.fifo.full[i]? = some b ∧
      q.length ≤ C ∧ (b = true ↔ q.length = C) :=
  (reachable_inv C hC1 (by simpa using hC) hs).2.2

/-- Witness of C1: capacity 1, lane 0 of the memory after `mc_fifo_init` and one write to
offset 0. -/
theorem C1_lane_bound_and_flag_witness :
    ∃ q b,
      (Mem.mk index_map ⟨[[7], [], [], []], true, [true, false, false, false], 15⟩).fifo.fifo[0]?
        = some q ∧
      (Mem.mk index_map ⟨[[7], [], [], []], true, [true, false, false, false], 15⟩).fifo.full[0]?
        = some b ∧
      q.length ≤ 1 ∧ (b = true ↔ q.length = 1) :=
  C1_lane_bound_and_flag 1 (by decide) (by decide) _
    (Reachable.write ⟨index_map, ⟨[[], [], [], []], true, [false, false, false, false], 15⟩⟩
      _ 0 7 true
      (Reachable.init ⟨index_map, ⟨[[1], [2, 3], [], [9]], false, [true, true, false, false], 3⟩⟩
        _ (by decide) (by decide))
      (by decide) (by decide))
    0 (by decide)

/-- C2 fails as stated: with capacity `C = 2 ^ 32`, a write to lane 0 holding `2 ^ 32 - 1`
words returns true and makes the lane `C` words long, but leaves its flag false. -/
theorem C2_counterexample :
    fifo_write 4294967296
      ⟨index_map, ⟨[List.replicate 4294967295 0, [], [], []], true,
        [false, false, false, false], 15⟩⟩ 0 5 =
      .ret true ⟨index_map, ⟨[List.replicate 4294967295 0 ++ [5], [], [], []], true,
        [false, false, false, false], 15⟩⟩ ∧
    (List.replicate 4294967295 0 ++ [5]).length = 4294967296 := by
  refine ⟨?_, ?_⟩
  · rw [fifo_write_lane_zero, List.length_replicate]
    rfl
  · rw [List.length_append, List.length_replicate]
    rfl

/-- C2, amended: in an initialised channel, a write to a canonical offset `o` whose lane
`o / 4` has its fullness flag clear returns true and the lane becomes the old queue with the
word appended at the back (one word longer), whatever the length of the lane. The flag of
the lane becomes (new length narrowed to `uint32_t` = `C`); provided the new length is below
`2 ^ 32`, that is (new length = `C`). -/
theorem C2_write_appends (C : Nat) (s : Mem) (o v : Nat) (q : List Nat)
    (hm : index_map_ok s.index_map) (ho : o ∈ canonical) (hi : s.fifo.init = true)
    (hq : s.fifo.fifo[o / 4]? = some q) (hb : s.fifo.full[o / 4]? = some false) :
    ∃ s1, fifo_write C s o v = .ret true s1 ∧
      s1.fifo.fifo[o / 4]? = some (q ++ [v]) ∧ (q ++ [v]).length = q.length + 1 ∧
      s1.fifo.full[o / 4]? = some (decide ((q ++ [v]).length % 2 ^ 32 = C)) ∧
      ((q ++ [v]).length < 2 ^ 32 →
        s1.fifo.full[o / 4]? = some (decide ((q ++ [v]).length = C))) := by
  obtain ⟨m, f⟩ := s
  simp only at hm hi hq hb
  have hlq : o / 4 < f.fifo.length := (List.getElem?_eq_some.1 hq).1
  have hlf : o / 4 < f.full.length := (List.getElem?_eq_some.1 hb).1
  refine ⟨_, by rw [fifo_write_lane C v (map_index_ok hm ho) hi hq hb]; rfl, ?_, ?_, ?_, ?_⟩
  · simp [List.getElem?_set, hlq]
  · simp
  · simp [List.getElem?_set, hlf]
  · intro hlen
    have hmod : (q.length + 1) % 4294967296 = q.length + 1 :=
      Nat.mod_eq_of_lt (by simpa using hlen)
    simp [List.getElem?_set, hlf, hmod]

/-- Witness of C2: capacity 2, a write of 9 to offset 4 whose lane holds one word. -/
theorem C2_write_appends_witness :
    ∃ s1, fifo_write 2 ⟨index_map, ⟨[[], [5], [], []], true, [false, false, false, false], 15⟩⟩
        4 9 = .ret true s1 ∧
      s1.fifo.fifo[4 / 4]? = some ([5] ++ [9]) ∧ ([5] ++ [9]).length = [5].length + 1 ∧
      s1.fifo.full[4 / 4]? = some (decide (([5] ++ [9]).length % 2 ^ 32 = 2)) ∧
      (([5] ++ [9]).length < 2 ^ 32 →
        s1.fifo.full[4 / 4]? = some (decide (([5] ++ [9]).length = 2))) :=
  C2_write_appends 2 ⟨index_map, ⟨[[], [5], [], []], true, [false, false, false, false], 15⟩⟩
    4 9 [5] (by decide) (by decide) rfl (by decide) (by decide)

/-- C3 fails as stated: with capacity `C = 2 ^ 32`, a read from lane 0 holding `2 ^ 32 + 1`
words returns true and leaves the lane `C` words long, but sets its flag to false. -/
theorem C3_counterexample :
    fifo_read 4294967296
      ⟨index_map, ⟨[7 :: List.replicate 4294967296 0, [], [], []], true,
        [false, false, false, false], 15⟩⟩ 0 0 =
      .ret (true, 7) ⟨index_map, ⟨[List.replicate 4294967296 0, [], [], []], true,
        [false, false, false, false], 15⟩⟩ ∧
    (List.replicate 4294967296 0).length = 4294967296 := by
  refine ⟨?_, List.length_replicate _ _⟩
  rw [fifo_read_lane_zero, List.length_replicate]
  rfl

/-- C3, amended: in an initialised channel with four lanes, a read from a canonical offset
`o` whose lane `o / 4` is not empty returns true together with the front word of the lane and
the lane becomes the old queue without its front (one word shorter), whatever the length of
the lane. The flag of the lane becomes (new length narrowed to `uint32_t` = `C`); provided
the new length is below `2 ^ 32`, that is (new length = `C`). -/
theorem C3_read_pops_front (C : Nat) (s : Mem) (o val front : Nat) (rest : List Nat)
    (hm : index_map_ok s.index_map) (ho : o ∈ canonical) (hi : s.fifo.init = true)
    (h4 : four_lanes s.fifo) (hq : s.fifo.fifo[o / 4]? = some (front :: rest)) :
    ∃ s1, fifo_read C s o val = .ret (true, front) s1 ∧
      s1.fifo.fifo[o / 4]? = some rest ∧ (front :: rest).length = rest.length + 1 ∧
      s1.fifo.full[o / 4]? = some (decide (rest.length % 2 ^ 32 = C)) ∧
      (rest.length < 2 ^ 32 → s1.fifo.full[o / 4]? = some (decide (rest.length = C))) := by
  obtain ⟨m, f⟩ := s
  simp only at hm hi hq h4
  have hlq : o / 4 < f.fifo.length := (List.getElem?_eq_some.1 hq).1
  have hlf : o / 4 < f.full.length := by rw [h4.2]; exact lane_lt_four ho
  refine ⟨_, by rw [fifo_read_lane C val (map_index_ok hm ho) hi hq hlf], ?_, ?_, ?_, ?_⟩
  · simp [List.getElem?_set, hlq]
  · simp
  · simp [List.getElem?_set, hlf]
  · intro hlen
    have hmod : rest.length % 4294967296 = rest.length :=
      Nat.mod_eq_of_lt (by simpa using hlen)
    simp [List.getElem?_set, hlf, hmod]

/-- Witness of C3: capacity 2, a read from offset 8 whose lane holds the words 5 and 6. -/
theorem C3_read_pops_front_witness :
    ∃ s1, fifo_read 2 ⟨index_map, ⟨[[], [], [5, 6], []], true, [false, false, true, false], 15⟩⟩
        8 0 = .ret (true, 5) s1 ∧
      s1.fifo.fifo[8 / 4]? = some [6] ∧ (5 :: [6]).length = [6].length + 1 ∧
      s1.fifo.full[8 / 4]? = some (decide ([6].length % 2 ^ 32 = 2)) ∧
      ([6].length < 2 ^ 32 → s1.fifo.full[8 / 4]? = some (decide ([6].length = 2))) :=
  C3_read_pops_front 2
    ⟨index_map, ⟨[[], [], [5, 6], []], true, [false, false, true, false], 15⟩⟩
    8 0 5 [6] (by decide) (by decide) rfl (by decide) (by decide)

/-- C4 fails as stated: with capacity `C = 2 ^ 32`, in the reachable memory whose lane 0
holds `C` words, a write to offset 0 returns true and appends the word. -/
theorem C4_counterexample :
    Reachable 4294967296
      ⟨index_map, ⟨[List.replicate 4294967296 0, [], [], []], true,
        [false, false, false, false], 15⟩⟩ ∧
    (List.replicate 4294967296 0).length = 4294967296 ∧
    fifo_write 4294967296
      ⟨index_map, ⟨[List.replicate 4294967296 0, [], [], []], true,
        [false, false, false, false], 15⟩⟩ 0 5 =
      .ret true ⟨index_map, ⟨[List.replicate 4294967296 0 ++ [5], [], [], []], true,
        [false, false, false, false], 15⟩⟩ := by
  refine ⟨reachable_replicate 4294967296, List.length_replicate _ _, ?_⟩
  rw [fifo_write_lane_zero, List.length_replicate]
  rfl

/-- C4, amended: for a capacity `1 ≤ C < 2 ^ 32`, in every reachable memory a write to a
canonical offset whose lane holds `C` words returns false and leaves the whole memory
(queues, flags, credits, init flag, index map) unchanged. -/
theorem C4_write_full_rejected (C : Nat) (hC1 : 1 ≤ C) (hC : C < 2 ^ 32) (s : Mem)
    (hs : Reachable C s) (o v : Nat) (ho : o ∈ canonical) (q : List Nat)
    (hq : s.fifo.fifo[o / 4]? = some q) (hlen : q.length = C) :
    fifo_write C s o v = .ret false s := by
  obtain ⟨hm, hi, hl⟩ := reachable_inv C hC1 (by simpa using hC) hs
  obtain ⟨q2, b, hq2, hb, _, hiff⟩ := hl (o / 4) (lane_lt_four ho)
  rw [hq] at hq2
  simp only [Option.some.injEq] at hq2
  subst hq2
  have hbt : b = true := hiff.2 hlen
  subst hbt
  obtain ⟨m, f⟩ := s
  rw [fifo_write_lane C v (map_index_ok hm ho) hi hq hb]
  rfl

/-- Witness of C4: capacity 1, a second write to offset 0 after one write to it. -/
theorem C4_write_full_rejected_witness :
    fifo_write 1 ⟨index_map, ⟨[[7], [], [], []], true, [true, false, false, false], 15⟩⟩ 0 8 =
      .ret false ⟨index_map, ⟨[[7], [], [], []], true, [true, false, false, false], 15⟩⟩ :=
  C4_write_full_rejected 1 (by decide) (by decide) _
    (Reachable.write ⟨index_map, ⟨[[], [], [], []], true, [false, false, false, false], 15⟩⟩
      _ 0 7 true
      (Reachable.init ⟨index_map, ⟨[[], [], [], []], false, [false, false, false, false], 0⟩⟩
        _ (by decide) (by decide))
      (by decide) (by decide))
    0 8 (by decide) [7] (by decide) rfl

/-- C5: in an initialised channel, a read from a canonical offset whose lane is empty returns
false, leaves the whole memory unchanged, and leaves the word behind the output pointer as it
was at the call. -/
theorem C5_read_empty_rejected (C : Nat) (s : Mem) (o val : Nat)
    (hm : index_map_ok s.index_map) (ho : o ∈ canonical) (hi : s.fifo.init = true)
    (hq : s.fifo.fifo[o / 4]? = some []) :
    fifo_read C s o val = .ret (false, val) s := by
  obtain ⟨m, f⟩ := s
  simp only at hm hi hq
  simp [fifo_read, hi, get_fifo_empty_lane (map_index_ok hm ho) hq, Outcome.bind]

/-- Witness of C5: a read from offset 12 of a channel whose lane 3 is empty. -/
theorem C5_read_empty_rejected_witness :
    fifo_read 1 ⟨index_map, ⟨[[7], [], [], []], true, [true, false, false, false], 15⟩⟩ 12 99 =
      .ret (false, 99) ⟨index_map, ⟨[[7], [], [], []], true, [true, false, false, false], 15⟩⟩ :=
  C5_read_empty_rejected 1 _ 12 99 (by decide) (by decide) rfl (by decide)

/-- C6: FIFO order. On a channel with four lanes, after `mc_fifo_init`, writing the words
`ws` (at most `C` of them) to one canonical offset returns true every time, and as many reads
from that offset then return true every time and yield the words in the order written. -/
theorem C6_fifo_order (C : Nat) (s0 : Mem) (o val : Nat) (ws : List Nat)
    (hm : index_map_ok s0.index_map) (h4 : four_lanes s0.fifo) (ho : o ∈ canonical)
    (hlen : ws.length ≤ C) :
    ∃ s1 s2 s3, mc_fifo_init s0 = .ret () s1 ∧
      write_all C o ws s1 = .ret (List.replicate ws.length true) s2 ∧
      read_all C o ws.length val s2 = .ret (ws.map fun w => (true, w)) s3 := by
  have hinit := mc_fifo_init_eq s0 h4
  obtain ⟨h1, h2, _, h5⟩ := mc_fifo_init_ret hinit
  have hk := map_index_ok hm ho
  have hlt := lane_lt_four ho
  obtain ⟨f1, hw, hi1, hq1, hlf1⟩ := write_all_lane C hk ws
    ⟨[[], [], [], []], true, [false, false, false, false], 15⟩ [] rfl (h5 _ hlt).1
    (by simpa using hlt) (fun _ => (h5 _ hlt).2) (by simpa using hlen)
  obtain ⟨f2, hr⟩ := read_all_lane C hk ws.length f1 ([] ++ ws) val hi1 hq1 hlf1 (by simp)
  refine ⟨_, _, ⟨s0.index_map, f2⟩, hinit, hw, ?_⟩
  rw [hr]
  simp

/-- Witness of C6: capacity 3, the words 10, 20, 30 through offset 8. -/
theorem C6_fifo_order_witness :
    ∃ s1 s2 s3,
      mc_fifo_init ⟨index_map, ⟨[[1], [2, 3], [], [9]], false, [true, true, false, false], 3⟩⟩
        = .ret () s1 ∧
      write_all 3 8 [10, 20, 30] s1 = .ret (List.replicate [10, 20, 30].length true) s2 ∧
      read_all 3 8 [10, 20, 30].length 0 s2 =
        .ret ([10, 20, 30].map fun w => (true, w)) s3 :=
  C6_fifo_order 3 ⟨index_map, ⟨[[1], [2, 3], [], [9]], false, [true, true, false, false], 3⟩⟩
    8 0 [10, 20, 30] (by decide) (by decide) (by decide) (by decide)

/-- C7 fails as stated: with the static index map and an initialised empty channel of
capacity 1, a write to offset 1 returns true and fills lane 0, and a read from offset 1 of
the channel so filled returns true with the word; neither call exits, and both enter
offset 1 in the index map. -/
theorem C7_counterexample :
    1 ∉ canonical ∧
    fifo_write 1 ⟨index_map, ⟨[[], [], [], []], true, [false, false, false, false], 15⟩⟩ 1 7 =
      .ret true ⟨[(0, 0), (1, 0), (4, 1), (8, 2), (12, 3)],
        ⟨[[7], [], [], []], true, [true, false, false, false], 15⟩⟩ ∧
    fifo_read 1 ⟨index_map, ⟨[[7], [], [], []], true, [true, false, false, false], 15⟩⟩ 1 0 =
      .ret (true, 7) ⟨[(0, 0), (1, 0), (4, 1), (8, 2), (12, 3)],
        ⟨[[], [], [], []], true, [false, false, false, false], 15⟩⟩ := by
  decide

/-- C7, amended: in an initialised channel with four lanes, an offset `o` that is not
canonical is not fatal. `std::map::operator[]` resolves it to lane 0, entering it in the
index map with the value 0 when it is not there yet, so `fifo_write` and `fifo_read` with
offset `o` return what the same call with offset `0x0` returns and leave the channel as that
call leaves it. -/
theorem C7_unresolved_offset_is_lane_zero (C : Nat) (s : Mem) (o v val : Nat)
    (hm : index_map_ok s.index_map) (hz : index_map_extra_zero s.index_map)
    (ho : o ∉ canonical) (hi : s.fifo.init = true) (h4 : four_lanes s.fifo) :
    (map_index s.index_map o).2.lookup o = some 0 ∧
    (∃ b f1, fifo_write C s 0x0 v = .ret b ⟨s.index_map, f1⟩ ∧
      fifo_write C s o v = .ret b ⟨(map_index s.index_map o).2, f1⟩) ∧
    (∃ r f1, fifo_read C s 0x0 val = .ret r ⟨s.index_map, f1⟩ ∧
      fifo_read C s o val = .ret r ⟨(map_index s.index_map o).2, f1⟩) := by
  obtain ⟨m, f⟩ := s
  simp only at hm hz hi h4 ⊢
  have hk := map_index_extra hz ho
  have hk0 : map_index m 0 = (0, m) := map_index_ok hm (by decide)
  obtain ⟨q0, q1, q2, q3, hff⟩ := list_length_four f.fifo h4.1
  obtain ⟨b0, b1, b2, b3, hfl⟩ := list_length_four f.full h4.2
  have hq : f.fifo[0]? = some q0 := by rw [hff]; rfl
  have hb : f.full[0]? = some b0 := by rw [hfl]; rfl
  have hlf : 0 < f.full.length := by rw [h4.2]; decide
  refine ⟨?_, ?_, ?_⟩
  · rw [lookup_after_map_index, congrArg Prod.fst hk]
  · rw [fifo_write_lane C v hk hi hq hb, fifo_write_lane C v hk0 hi hq hb]
    cases b0 with
    | true => exact ⟨false, f, rfl, rfl⟩
    | false => exact ⟨true, _, rfl, rfl⟩
  · rw [fifo_read_lane C val hk hi hq hlf, fifo_read_lane C val hk0 hi hq hlf]
    cases q0 with
    | nil => exact ⟨(false, val), f, rfl, rfl⟩
    | cons front rest => exact ⟨(true, front), _, rfl, rfl⟩

/-- Witness of the amended C7: offset 1 on an initialised channel of capacity 2. -/
theorem C7_unresolved_offset_is_lane_zero_witness :
    (map_index index_map 1).2.lookup 1 = some 0 ∧
    (∃ b f1,
      fifo_write 2 ⟨index_map, ⟨[[5], [], [], []], true, [false, false, false, false], 15⟩⟩
        0x0 6 = .ret b ⟨index_map, f1⟩ ∧
      fifo_write 2 ⟨index_map, ⟨[[5], [], [], []], true, [false, false, false, false], 15⟩⟩
        1 6 = .ret b ⟨(map_index index_map 1).2, f1⟩) ∧
    (∃ r f1,
      fifo_read 2 ⟨index_map, ⟨[[5], [], [], []], true, [false, false, false, false], 15⟩⟩
        0x0 0 = .ret r ⟨index_map, f1⟩ ∧
      fifo_read 2 ⟨index_map, ⟨[[5], [], [], []], true, [false, false, false, false], 15⟩⟩
        1 0 = .ret r ⟨(map_index index_map 1).2, f1⟩) :=
  C7_unresolved_offset_is_lane_zero 2
    ⟨index_map, ⟨[[5], [], [], []], true, [false, false, false, false], 15⟩⟩ 1 6 0
    (by decide) (by decide) (by decide) rfl (by decide)

/-- C8 fails as stated: for the two directions from the manycore to the host
`mc_fifo_get_credits` does not exit. It returns to its caller, with whatever its local held
(42 here), and not a credits field of a channel. -/
theorem C8_counterexample :
    mc_fifo_get_credits
      ⟨index_map, ⟨[[], [], [], []], true, [false, false, false, false], 15⟩,
        ⟨[[], [], [], []], true, [false, false, false, false], 15⟩,
        ⟨[[], [], [], []], true, [false, false, false, false], 15⟩⟩
      FIFO_MC_TO_HOST_REQ 42 =
      .ret 42 ⟨index_map, ⟨[[], [], [], []], true, [false, false, false, false], 15⟩,
        ⟨[[], [], [], []], true, [false, false, false, false], 15⟩,
        ⟨[[], [], [], []], true, [false, false, false, false], 15⟩⟩ ∧
    mc_fifo_get_credits
      ⟨index_map, ⟨[[], [], [], []], true, [false, false, false, false], 15⟩,
        ⟨[[], [], [], []], true, [false, false, false, false], 15⟩,
        ⟨[[], [], [], []], true, [false, false, false, false], 15⟩⟩
      FIFO_MC_TO_HOST_RESP 42 =
      .ret 42 ⟨index_map, ⟨[[], [], [], []], true, [false, false, false, false], 15⟩,
        ⟨[[], [], [], []], true, [false, false, false, false], 15⟩,
        ⟨[[], [], [], []], true, [false, false, false, false], 15⟩⟩ := by
  decide

/-- C8, amended: for the host-to-manycore request direction `mc_fifo_get_credits` returns the
credits field of that channel; for the two directions from the manycore to the host it does
not exit but returns to its caller with all three channels and the index map unchanged (the
value it returns is not specified); for a value that is not one of the three directions it
exits. -/
theorem C8_credits_only_on_request_direction (g : Globals) (credits : Int) (t : Nat) :
    mc_fifo_get_credits g FIFO_HOST_TO_MC_REQ credits = .ret g.host_to_mc_req_fifo.credits g ∧
    (∃ v, mc_fifo_get_credits g FIFO_MC_TO_HOST_REQ credits = .ret v g) ∧
    (∃ v, mc_fifo_get_credits g FIFO_MC_TO_HOST_RESP credits = .ret v g) ∧
    mc_fifo_get_credits g (t + 3) credits = .exited g := by
  refine ⟨?_, ⟨credits, ?_⟩, ⟨credits, ?_⟩, ?_⟩
  · simp [mc_fifo_get_credits, with_host_to_mc_req, get_fifo_credits]
  · simp [mc_fifo_get_credits, FIFO_HOST_TO_MC_REQ, FIFO_MC_TO_HOST_REQ]
  · simp [mc_fifo_get_credits, FIFO_HOST_TO_MC_REQ, FIFO_MC_TO_HOST_RESP]
  · simp [mc_fifo_get_credits, FIFO_HOST_TO_MC_REQ, FIFO_MC_TO_HOST_REQ, FIFO_MC_TO_HOST_RESP]

/-- C9: whatever a channel with four lanes holds (init flag set or not, any words, any flags,
any credits), `mc_fifo_init` returns with the four lanes empty, the four flags false,
credits 15 and the init flag true; hence a second `mc_fifo_init` changes nothing. -/
theorem C9_init_canonical_idempotent (s : Mem) (h4 : four_lanes s.fifo) :
    mc_fifo_init s =
      .ret () ⟨s.index_map, ⟨[[], [], [], []], true, [false, false, false, false], 15⟩⟩ ∧
    (mc_fifo_init s).bind (fun _ s1 => mc_fifo_init s1) = mc_fifo_init s := by
  have h := mc_fifo_init_eq s h4
  refine ⟨h, ?_⟩
  rw [h]
  exact mc_fifo_init_eq
    ⟨s.index_map, ⟨[[], [], [], []], true, [false, false, false, false], 15⟩⟩ ⟨rfl, rfl⟩

/-- Witness of C9: a channel that is not initialised and holds words, flags and credits. -/
theorem C9_init_canonical_idempotent_witness :
    mc_fifo_init ⟨index_map, ⟨[[1], [2, 3], [], [9]], false, [true, true, false, false], 3⟩⟩ =
      .ret () ⟨index_map, ⟨[[], [], [], []], true, [false, false, false, false], 15⟩⟩ ∧
    (mc_fifo_init
        ⟨index_map, ⟨[[1], [2, 3], [], [9]], false, [true, true, false, false], 3⟩⟩).bind
      (fun _ s1 => mc_fifo_init s1) =
      mc_fifo_init ⟨index_map, ⟨[[1], [2, 3], [], [9]], false, [true, true, false, false], 3⟩⟩ :=
  C9_init_canonical_idempotent
    ⟨index_map, ⟨[[1], [2, 3], [], [9]], false, [true, true, false, false], 3⟩⟩ (by decide)

/-- C10: for a channel with four lanes, the aggregate fullness query (`_full` false, any
`fifo_id`) returns true if and only if the per-lane query returns true for each of the four
canonical offsets, and the per-lane query for a canonical offset `o` returns the fullness
flag of lane `o / 4`; neither query changes the memory. -/
theorem C10_aggregate_full (s : Mem) (fifo_id : Nat) (hm : index_map_ok s.index_map)
    (h4 : four_lanes s.fifo) :
    (∃ a, get_fifo_full s false fifo_id = .ret a s ∧
      (a = true ↔ ∀ o ∈ canonical, get_fifo_full s true o = .ret true s)) ∧
    (∀ o ∈ canonical, ∃ b, s.fifo.full[o / 4]? = some b ∧
      get_fifo_full s true o = .ret b s) := by
  obtain ⟨m, f⟩ := s
  simp only at hm h4
  obtain ⟨b0, b1, b2, b3, hfl⟩ := list_length_four f.full h4.2
  have h0 := get_fifo_full_lane (f := f) (b := b0) (map_index_ok hm (o := 0) (by decide))
    (by rw [hfl]; rfl)
  have h1 := get_fifo_full_lane (f := f) (b := b1) (map_index_ok hm (o := 4) (by decide))
    (by rw [hfl]; rfl)
  have h2 := get_fifo_full_lane (f := f) (b := b2) (map_index_ok hm (o := 8) (by decide))
    (by rw [hfl]; rfl)
  have h3 := get_fifo_full_lane (f := f) (b := b3) (map_index_ok hm (o := 12) (by decide))
    (by rw [hfl]; rfl)
  refine ⟨⟨b0 && b1 && b2 && b3, ?_, ?_⟩, ?_⟩
  · simp [get_fifo_full, hfl]
  · simp [canonical, h0, h1, h2, h3, and_assoc]
  · intro o ho
    simp only [canonical, List.mem_cons, List.mem_singleton, List.not_mem_nil, or_false] at ho
    rcases ho with rfl | rfl | rfl | rfl
    · exact ⟨b0, by rw [hfl]; rfl, h0⟩
    · exact ⟨b1, by rw [hfl]; rfl, h1⟩
    · exact ⟨b2, by rw [hfl]; rfl, h2⟩
    · exact ⟨b3, by rw [hfl]; rfl, h3⟩

/-- Witness of C10: a channel with two full and two empty lanes. -/
theorem C10_aggregate_full_witness :
    (∃ a, get_fifo_full
        ⟨index_map, ⟨[[1], [2], [], []], true, [true, true, false, false], 15⟩⟩ false 0 =
        .ret a ⟨index_map, ⟨[[1], [2], [], []], true, [true, true, false, false], 15⟩⟩ ∧
      (a = true ↔ ∀ o ∈ canonical,
        get_fifo_full ⟨index_map, ⟨[[1], [2], [], []], true, [true, true, false, false], 15⟩⟩
          true o =
          .ret true ⟨index_map, ⟨[[1], [2], [], []], true, [true, true, false, false], 15⟩⟩)) ∧
    (∀ o ∈ canonical, ∃ b,
      (Mem.mk index_map ⟨[[1], [2], [], []], true, [true, true, false, false], 15⟩).fifo.full[
        o / 4]? = some b ∧
      get_fifo_full ⟨index_map, ⟨[[1], [2], [], []], true, [true, true, false, false], 15⟩⟩
        true o =
        .ret b ⟨index_map, ⟨[[1], [2], [], []], true, [true, true, false, false], 15⟩⟩) :=
  C10_aggregate_full ⟨index_map, ⟨[[1], [2], [], []], true, [true, true, false, false], 15⟩⟩
    0 (by decide) (by decide)

end Dromajo

namespace Dromajo

/-! ## Lists, lanes and the aggregate queries -/

theorem list_set_self {α : Type} (l : List α) (k : Nat) (a : α) (h : l[k]? = some a) :
    l.set k a = l := by
  induction l generalizing k with
  | nil => rfl
  | cons x xs ih =>
    cases k with
    | zero =>
      simp only [List.getElem?_cons_zero, Option.some.injEq] at h
      simp [h]
    | succ k =>
      simp only [List.getElem?_cons_succ] at h
      simp [ih k h]

theorem foldl_and_flags (l : List Bool) (a : Bool) :
    l.foldl (fun is_full b => is_full && b) a = (a && l.all id) := by
  induction l generalizing a with
  | nil => simp
  | cons x xs ih => simp [ih, Bool.and_assoc]

theorem foldl_and_empty (l : List (List Nat)) (a : Bool) :
    l.foldl (fun is_empty q => is_empty && q.isEmpty) a = (a && l.all List.isEmpty) := by
  induction l generalizing a with
  | nil => simp
  | cons x xs ih => simp [ih, Bool.and_assoc]

theorem four_lanes_lane {f : mc_fifo_t} (h4 : four_lanes f) {k : Nat} (hk : k < 4) :
    ∃ q b, f.fifo[k]? = some q ∧ f.full[k]? = some b := by
  have h1 : k < f.fifo.length := by rw [h4.1]; exact hk
  have h2 : k < f.full.length := by rw [h4.2]; exact hk
  exact ⟨f.fifo[k], f.full[k], List.getElem?_eq_getElem h1, List.getElem?_eq_getElem h2⟩

/-- The aggregate emptiness query is false as soon as one lane holds a word. -/
theorem get_fifo_empty_aggregate_false (s : Mem) (fifo_id i : Nat) (q : List Nat)
    (hq : s.fifo.fifo[i]? = some q) (hne : q ≠ []) :
    get_fifo_empty s false fifo_id = .ret false s := by
  have hmem : q ∈ s.fifo.fifo := List.getElem?_mem hq
  have hall : s.fifo.fifo.all List.isEmpty = false := by
    rw [Bool.eq_false_iff]
    intro h
    rw [List.all_eq_true] at h
    have := h q hmem
    rw [List.isEmpty_iff] at this
    exact hne this
  simp [get_fifo_empty, foldl_and_empty, hall]

/-- The aggregate fullness query is false as soon as one flag is clear. -/
theorem get_fifo_full_aggregate_false (s : Mem) (fifo_id j : Nat)
    (hb : s.fifo.full[j]? = some false) :
    get_fifo_full s false fifo_id = .ret false s := by
  have hmem : false ∈ s.fifo.full := List.getElem?_mem hb
  have hall : s.fifo.full.all id = false := by
    rw [Bool.eq_false_iff]
    intro h
    rw [List.all_eq_true] at h
    have := h false hmem
    simp at this
  simp [get_fifo_full, foldl_and_flags, hall]

end Dromajo

namespace Dromajo

/-! ## The flags of reachable memories, for any capacity -/

theorem flaginv_init (C : Nat) (hC : 1 ≤ C) {s0 s : Mem} (hm : index_map_ok s0.index_map)
    (h : mc_fifo_init s0 = .ret () s) : FlagInv C s := by
  obtain ⟨h1, h2, _, h4⟩ := mc_fifo_init_ret h
  refine ⟨h1 ▸ hm, h2, ?_⟩
  intro i hi
  refine ⟨[], false, (h4 i hi).1, (h4 i hi).2, ?_⟩
  simp only [List.length_nil, Nat.zero_mod, Bool.false_eq_true, false_iff]
  omega

theorem flaginv_write (C : Nat) {s s1 : Mem} {o v : Nat} {b : Bool}
    (hs : FlagInv C s) (ho : o ∈ canonical) (h : fifo_write C s o v = .ret b s1) :
    FlagInv C s1 := by
  obtain ⟨hm, hi, hl⟩ := hs
  obtain ⟨m, f⟩ := s
  simp only at hm hi hl
  obtain ⟨q, fl, hq, hb, hiff⟩ := hl (o / 4) (lane_lt_four ho)
  rw [fifo_write_lane C v (map_index_ok hm ho) hi hq hb] at h
  have hlq : o / 4 < f.fifo.length := (List.getElem?_eq_some.1 hq).1
  have hlf : o / 4 < f.full.length := (List.getElem?_eq_some.1 hb).1
  cases fl with
  | true =>
    simp only [if_true, Outcome.ret.injEq] at h
    rw [← h.2]
    exact ⟨hm, hi, hl⟩
  | false =>
    simp only [Bool.false_eq_true, if_false, Outcome.ret.injEq] at h
    rw [← h.2]
    refine ⟨hm, hi, ?_⟩
    intro i hi4
    by_cases hik : i = o / 4
    · subst hik
      refine ⟨q ++ [v], decide ((q.length + 1) % 4294967296 = C), ?_, ?_, ?_⟩
      · simp [List.getElem?_set, hlq]
      · simp [List.getElem?_set, hlf]
      · simp
    · obtain ⟨q2, b2, hq2, hb2, hiff2⟩ := hl i hi4
      refine ⟨q2, b2, ?_, ?_, hiff2⟩
      · simpa [List.getElem?_set, Ne.symm hik] using hq2
      · simpa [List.getElem?_set, Ne.symm hik] using hb2

theorem flaginv_read (C : Nat) {s s1 : Mem} {o val : Nat} {r : Bool × Nat}
    (hs : FlagInv C s) (ho : o ∈ canonical) (h : fifo_read C s o val = .ret r s1) :
    FlagInv C s1 := by
  obtain ⟨hm, hi, hl⟩ := hs
  obtain ⟨m, f⟩ := s
  simp only at hm hi hl
  obtain ⟨q, fl, hq, hb, hiff⟩ := hl (o / 4) (lane_lt_four ho)
  have hlq : o / 4 < f.fifo.length := (List.getElem?_eq_some.1 hq).1
  have hlf : o / 4 < f.full.length := (List.getElem?_eq_some.1 hb).1
  rw [fifo_read_lane C val (map_index_ok hm ho) hi hq hlf] at h
  cases q with
  | nil =>
    simp only [Outcome.ret.injEq] at h
    rw [← h.2]
    exact ⟨hm, hi, hl⟩
  | cons front rest =>
    simp only [Outcome.ret.injEq] at h
    rw [← h.2]
    refine ⟨hm, hi, ?_⟩
    intro i hi4
    by_cases hik : i = o / 4
    · subst hik
      refine ⟨rest, decide (rest.length % 4294967296 = C), ?_, ?_, ?_⟩
      · simp [List.getElem?_set, hlq]
      · simp [List.getElem?_set, hlf]
      · simp
    · obtain ⟨q2, b2, hq2, hb2, hiff2⟩ := hl i hi4
      refine ⟨q2, b2, ?_, ?_, hiff2⟩
      · simpa [List.getElem?_set, Ne.symm hik] using hq2
      · simpa [List.getElem?_set, Ne.symm hik] using hb2

theorem reachable_flaginv (C : Nat) (hC1 : 1 ≤ C) {s : Mem} (hs : Reachable C s) :
    FlagInv C s := by
  induction hs with
  | init s0 s hm h => exact flaginv_init C hC1 hm h
  | write s s1 o v b _ ho h ih => exact flaginv_write C ih ho h
  | read s s1 o val r _ ho h ih => exact flaginv_read C ih ho h

/-- In a reachable memory a lane that does not hold exactly `C` words has its flag clear. -/
theorem reachable_not_full (C : Nat) (hC1 : 1 ≤ C) {s : Mem} (hs : Reachable C s)
    {j : Nat} (hj : j < 4) {q : List Nat} (hq : s.fifo.fifo[j]? = some q)
    (hne : q.length ≠ C) : s.fifo.full[j]? = some false := by
  obtain ⟨_, _, hl⟩ := reachable_flaginv C hC1 hs
  obtain ⟨q2, b, hq2, hb, hiff⟩ := hl j hj
  rw [hq] at hq2
  simp only [Option.some.injEq] at hq2
  subst hq2
  cases b with
  | false => exact hb
  | true =>
    exfalso
    have hmod : q.length % 4294967296 = C := hiff.1 rfl
    by_cases hC : C < 4294967296
    · obtain ⟨_, _, hl2⟩ := reachable_inv C hC1 hC hs
      obtain ⟨q3, b3, hq3, _, hle, _⟩ := hl2 j hj
      rw [hq] at hq3
      simp only [Option.some.injEq] at hq3
      subst hq3
      rw [Nat.mod_eq_of_lt (by omega)] at hmod
      exact hne hmod
    · have := Nat.mod_lt q.length (by norm_num : 0 < 4294967296)
      omega

end Dromajo

namespace Dromajo

/-! ## The claims, continued -/

/-- C11: for a channel with four lanes, the aggregate emptiness query (`_empty` false, any
`fifo_id`) returns true if and only if each of the four lanes holds no word, which is the case
if and only if the per-lane query returns true for each of the four canonical offsets; and
the per-lane query for a canonical offset `o` returns true if and only if lane `o / 4` holds
no word. Neither query changes the memory. -/
theorem C11_aggregate_empty (s : Mem) (fifo_id : Nat) (hm : index_map_ok s.index_map)
    (h4 : four_lanes s.fifo) :
    (∃ a, get_fifo_empty s false fifo_id = .ret a s ∧
      (a = true ↔ ∀ i, i < 4 → ∃ q, s.fifo.fifo[i]? = some q ∧ q.length = 0) ∧
      (a = true ↔ ∀ o ∈ canonical, get_fifo_empty s true o = .ret true s)) ∧
    (∀ o ∈ canonical, ∃ q b, s.fifo.fifo[o / 4]? = some q ∧
      get_fifo_empty s true o = .ret b s ∧ (b = true ↔ q.length = 0)) := by
  obtain ⟨m, f⟩ := s
  simp only at hm h4
  obtain ⟨q0, q1, q2, q3, hff⟩ := list_length_four f.fifo h4.1
  have h0 := get_fifo_empty_lane (f := f) (q := q0) (map_index_ok hm (o := 0) (by decide))
    (by rw [hff]; rfl)
  have h1 := get_fifo_empty_lane (f := f) (q := q1) (map_index_ok hm (o := 4) (by decide))
    (by rw [hff]; rfl)
  have h2 := get_fifo_empty_lane (f := f) (q := q2) (map_index_ok hm (o := 8) (by decide))
    (by rw [hff]; rfl)
  have h3 := get_fifo_empty_lane (f := f) (q := q3) (map_index_ok hm (o := 12) (by decide))
    (by rw [hff]; rfl)
  refine ⟨⟨q0.isEmpty && q1.isEmpty && q2.isEmpty && q3.isEmpty, ?_, ?_, ?_⟩, ?_⟩
  · simp [get_fifo_empty, hff]
  · simp only [hff, Bool.and_eq_true, List.isEmpty_iff, List.length_eq_zero]
    constructor
    · rintro ⟨⟨⟨e0, e1⟩, e2⟩, e3⟩ i hi
      interval_cases i
      · exact ⟨q0, rfl, e0⟩
      · exact ⟨q1, rfl, e1⟩
      · exact ⟨q2, rfl, e2⟩
      · exact ⟨q3, by simp, e3⟩
    · intro h
      obtain ⟨a0, ha0, e0⟩ := h 0 (by decide)
      obtain ⟨a1, ha1, e1⟩ := h 1 (by decide)
      obtain ⟨a2, ha2, e2⟩ := h 2 (by decide)
      obtain ⟨a3, ha3, e3⟩ := h 3 (by decide)
      simp at ha0 ha1 ha2 ha3
      subst ha0 ha1 ha2 ha3
      exact ⟨⟨⟨e0, e1⟩, e2⟩, e3⟩
  · simp [canonical, h0, h1, h2, h3, and_assoc]
  · intro o ho
    simp only [canonical, List.mem_cons, List.mem_singleton, List.not_mem_nil, or_false] at ho
    rcases ho with rfl | rfl | rfl | rfl
    · exact ⟨q0, _, by rw [hff]; rfl, h0, by simp [List.isEmpty_iff]⟩
    · exact ⟨q1, _, by rw [hff]; rfl, h1, by simp [List.isEmpty_iff]⟩
    · exact ⟨q2, _, by rw [hff]; rfl, h2, by simp [List.isEmpty_iff]⟩
    · exact ⟨q3, _, by rw [hff]; rfl, h3, by simp [List.isEmpty_iff]⟩

/-- Witness of C11: a channel with two lanes holding a word and two empty lanes. -/
theorem C11_aggregate_empty_witness :
    (∃ a, get_fifo_empty
        ⟨index_map, ⟨[[1], [2], [], []], true, [true, true, false, false], 15⟩⟩ false 0 =
        .ret a ⟨index_map, ⟨[[1], [2], [], []], true, [true, true, false, false], 15⟩⟩ ∧
      (a = true ↔ ∀ i, i < 4 → ∃ q,
        (Mem.mk index_map ⟨[[1], [2], [], []], true, [true, true, false, false], 15⟩).fifo.fifo[
          i]? = some q ∧ q.length = 0) ∧
      (a = true ↔ ∀ o ∈ canonical,
        get_fifo_empty ⟨index_map, ⟨[[1], [2], [], []], true, [true, true, false, false], 15⟩⟩
          true o =
          .ret true ⟨index_map, ⟨[[1], [2], [], []], true, [true, true, false, false], 15⟩⟩)) ∧
    (∀ o ∈ canonical, ∃ q b,
      (Mem.mk index_map ⟨[[1], [2], [], []], true, [true, true, false, false], 15⟩).fifo.fifo[
        o / 4]? = some q ∧
      get_fifo_empty ⟨index_map, ⟨[[1], [2], [], []], true, [true, true, false, false], 15⟩⟩
        true o =
        .ret b ⟨index_map, ⟨[[1], [2], [], []], true, [true, true, false, false], 15⟩⟩ ∧
      (b = true ↔ q.length = 0)) :=
  C11_aggregate_empty ⟨index_map, ⟨[[1], [2], [], []], true, [true, true, false, false], 15⟩⟩
    0 (by decide) (by decide)

end Dromajo

namespace Dromajo

/-- C12: for every capacity `1 ≤ C` and all words `a`, `b`, `c`, after `mc_fifo_init` on a
channel with four lanes the writes of `a` to `0x0`, `b` to `0x4` and `c` to `0x8` all return
true, and then the aggregate emptiness query and the aggregate fullness query both return
false. More generally, in every reachable memory `s` in which some lane holds a word and some
lane `j` is not full (its flag is false, or it does not hold exactly `C` words), both
aggregate queries return false. -/
theorem C12_partial_packet (C : Nat) (hC : 1 ≤ C) (a b c : Nat) (s0 : Mem)
    (hm : index_map_ok s0.index_map) (h4 : four_lanes s0.fifo)
    (s : Mem) (hs : Reachable C s) (i j : Nat) (hj : j < 4) (q : List Nat)
    (hq : s.fifo.fifo[i]? = some q) (hne : q ≠ [])
    (hnf : s.fifo.full[j]? = some false ∨ ∃ p, s.fifo.fifo[j]? = some p ∧ p.length ≠ C) :
    (∃ s1 s2 s3 s4, mc_fifo_init s0 = .ret () s1 ∧
      fifo_write C s1 0x0 a = .ret true s2 ∧ fifo_write C s2 0x4 b = .ret true s3 ∧
      fifo_write C s3 0x8 c = .ret true s4 ∧
      get_fifo_empty s4 false 0x0 = .ret false s4 ∧
      get_fifo_full s4 false 0x0 = .ret false s4) ∧
    (get_fifo_empty s false 0x0 = .ret false s ∧ get_fifo_full s false 0x0 = .ret false s) := by
  constructor
  · have hk0 := map_index_ok hm (o := 0) (by decide)
    have hk1 := map_index_ok hm (o := 4) (by decide)
    have hk2 := map_index_ok hm (o := 8) (by decide)
    simp only [Nat.reduceDiv] at hk0 hk1 hk2
    have w0 := fifo_write_lane (q := []) (b := false) C a
      (f := ⟨[[], [], [], []], true, [false, false, false, false], 15⟩) hk0 rfl
      (by simp) (by simp)
    have w1 := fifo_write_lane (q := []) (b := false) C b
      (f := ⟨[[a], [], [], []], true, [decide (1 = C), false, false, false], 15⟩) hk1 rfl
      (by simp) (by simp)
    have w2 := fifo_write_lane (q := []) (b := false) C c
      (f := ⟨[[a], [b], [], []], true, [decide (1 = C), decide (1 = C), false, false], 15⟩)
      hk2 rfl (by simp) (by simp)
    simp at w0 w1 w2
    refine ⟨_, _, _,
      ⟨s0.index_map, ⟨[[a], [b], [c], []], true,
        [decide (1 = C), decide (1 = C), decide (1 = C), false], 15⟩⟩,
      mc_fifo_init_eq s0 h4, w0, w1, w2, ?_, ?_⟩
    · exact get_fifo_empty_aggregate_false _ 0 0 [a] (by simp) (by simp)
    · exact get_fifo_full_aggregate_false _ 0 3 (by simp)
  · refine ⟨get_fifo_empty_aggregate_false s 0 i q hq hne, ?_⟩
    rcases hnf with hb | ⟨p, hp, hpne⟩
    · exact get_fifo_full_aggregate_false s 0 j hb
    · exact get_fifo_full_aggregate_false s 0 j (reachable_not_full C hC hs hj hp hpne)

/-- Witness of C12: capacity 2, the words 1, 2, 3, and the reachable memory after one write
to offset 0, whose lane 0 holds a word and whose lane 3 is empty. -/
theorem C12_partial_packet_witness :
    (∃ s1 s2 s3 s4,
      mc_fifo_init ⟨index_map, ⟨[[9], [], [], []], false, [true, false, false, false], 0⟩⟩ =
        .ret () s1 ∧
      fifo_write 2 s1 0x0 1 = .ret true s2 ∧ fifo_write 2 s2 0x4 2 = .ret true s3 ∧
      fifo_write 2 s3 0x8 3 = .ret true s4 ∧
      get_fifo_empty s4 false 0x0 = .ret false s4 ∧
      get_fifo_full s4 false 0x0 = .ret false s4) ∧
    (get_fifo_empty ⟨index_map, ⟨[[7], [], [], []], true, [false, false, false, false], 15⟩⟩
        false 0x0 =
        .ret false ⟨index_map, ⟨[[7], [], [], []], true, [false, false, false, false], 15⟩⟩ ∧
      get_fifo_full ⟨index_map, ⟨[[7], [], [], []], true, [false, false, false, false], 15⟩⟩
        false 0x0 =
        .ret false ⟨index_map, ⟨[[7], [], [], []], true, [false, false, false, false], 15⟩⟩) :=
  C12_partial_packet 2 (by decide) 1 2 3
    ⟨index_map, ⟨[[9], [], [], []], false, [true, false, false, false], 0⟩⟩
    (by decide) (by decide)
    ⟨index_map, ⟨[[7], [], [], []], true, [false, false, false, false], 15⟩⟩
    (Reachable.write ⟨index_map, ⟨[[], [], [], []], true, [false, false, false, false], 15⟩⟩
      _ 0 7 true
      (Reachable.init ⟨index_map, ⟨[[9], [], [], []], false, [true, false, false, false], 0⟩⟩
        _ (by decide) (by decide))
      (by decide) (by decide))
    0 3 (by decide) [7] (by decide) (by decide) (Or.inl (by decide))

end Dromajo

namespace Dromajo

/-- C13: in an initialised channel with four lanes, a write to or a read from a canonical
offset `o` returns, whether with true or with false, and leaves the queues and flags of all
lanes other than `o / 4`, the credits, the init flag and the index map as they were. -/
theorem C13_one_lane_touched (C : Nat) (s : Mem) (o v val : Nat)
    (hm : index_map_ok s.index_map) (ho : o ∈ canonical) (hi : s.fifo.init = true)
    (h4 : four_lanes s.fifo) :
    (∃ b s1, fifo_write C s o v = .ret b s1 ∧
      s1.fifo.credits = s.fifo.credits ∧ s1.fifo.init = s.fifo.init ∧
      s1.index_map = s.index_map ∧
      ∀ i, i ≠ o / 4 →
        s1.fifo.fifo[i]? = s.fifo.fifo[i]? ∧ s1.fifo.full[i]? = s.fifo.full[i]?) ∧
    (∃ r s1, fifo_read C s o val = .ret r s1 ∧
      s1.fifo.credits = s.fifo.credits ∧ s1.fifo.init = s.fifo.init ∧
      s1.index_map = s.index_map ∧
      ∀ i, i ≠ o / 4 →
        s1.fifo.fifo[i]? = s.fifo.fifo[i]? ∧ s1.fifo.full[i]? = s.fifo.full[i]?) := by
  obtain ⟨m, f⟩ := s
  simp only at hm hi h4 ⊢
  obtain ⟨q, b, hq, hb⟩ := four_lanes_lane h4 (lane_lt_four ho)
  have hlf : o / 4 < f.full.length := (List.getElem?_eq_some.1 hb).1
  constructor
  · rw [fifo_write_lane C v (map_index_ok hm ho) hi hq hb]
    cases b with
    | true => exact ⟨false, _, rfl, rfl, rfl, rfl, fun i _ => ⟨rfl, rfl⟩⟩
    | false =>
      refine ⟨true, _, rfl, rfl, rfl, rfl, fun i hne => ⟨?_, ?_⟩⟩
      · simp [List.getElem?_set, Ne.symm hne]
      · simp [List.getElem?_set, Ne.symm hne]
  · rw [fifo_read_lane C val (map_index_ok hm ho) hi hq hlf]
    cases q with
    | nil => exact ⟨(false, val), _, rfl, rfl, rfl, rfl, fun i _ => ⟨rfl, rfl⟩⟩
    | cons front rest =>
      refine ⟨(true, front), _, rfl, rfl, rfl, rfl, fun i hne => ⟨?_, ?_⟩⟩
      · simp [List.getElem?_set, Ne.symm hne]
      · simp [List.getElem?_set, Ne.symm hne]

/-- Witness of C13: capacity 1, offset 4 of a channel whose lanes 0 and 1 hold a word. -/
theorem C13_one_lane_touched_witness :
    (∃ b s1,
      fifo_write 1 ⟨index_map, ⟨[[1], [2], [], []], true, [true, true, false, false], 15⟩⟩ 4 7 =
        .ret b s1 ∧
      s1.fifo.credits = (15 : Int) ∧ s1.fifo.init = true ∧ s1.index_map = index_map ∧
      ∀ i, i ≠ 4 / 4 →
        s1.fifo.fifo[i]? = [[1], [2], [], []][i]? ∧
        s1.fifo.full[i]? = [true, true, false, false][i]?) ∧
    (∃ r s1,
      fifo_read 1 ⟨index_map, ⟨[[1], [2], [], []], true, [true, true, false, false], 15⟩⟩ 4 0 =
        .ret r s1 ∧
      s1.fifo.credits = (15 : Int) ∧ s1.fifo.init = true ∧ s1.index_map = index_map ∧
      ∀ i, i ≠ 4 / 4 →
        s1.fifo.fifo[i]? = [[1], [2], [], []][i]? ∧
        s1.fifo.full[i]? = [true, true, false, false][i]?) :=
  C13_one_lane_touched 1
    ⟨index_map, ⟨[[1], [2], [], []], true, [true, true, false, false], 15⟩⟩ 4 7 0
    (by decide) (by decide) rfl (by decide)

/-- C14: on a channel whose init flag is false, `fifo_write` and `fifo_read` exit for every
offset and every word, whatever the lanes hold: neither returns a result, and the memory at
the exit (queues, flags, credits, index map) is the memory at the call. -/
theorem C14_uninitialised_is_fatal (C : Nat) (s : Mem) (o v val : Nat)
    (hi : s.fifo.init = false) :
    fifo_write C s o v = .exited s ∧ fifo_read C s o val = .exited s := by
  simp [fifo_write, fifo_read, hi]

/-- Witness of C14: offset 0, whose lane is full, on a channel that is not initialised. -/
theorem C14_uninitialised_is_fatal_witness :
    fifo_write 1 ⟨index_map, ⟨[[1], [], [], []], false, [true, false, false, false], 3⟩⟩ 0 7 =
      .exited ⟨index_map, ⟨[[1], [], [], []], false, [true, false, false, false], 3⟩⟩ ∧
    fifo_read 1 ⟨index_map, ⟨[[1], [], [], []], false, [true, false, false, false], 3⟩⟩ 0 9 =
      .exited ⟨index_map, ⟨[[1], [], [], []], false, [true, false, false, false], 3⟩⟩ :=
  C14_uninitialised_is_fatal 1
    ⟨index_map, ⟨[[1], [], [], []], false, [true, false, false, false], 3⟩⟩ 0 7 9 rfl

end Dromajo

namespace Dromajo

/-! ## What a returning call leaves behind, for any offset and any channel -/

theorem get_fifo_full_ret {s s1 : Mem} {fl b : Bool} {o : Nat}
    (h : get_fifo_full s fl o = .ret b s1) :
    s1.fifo = s.fifo ∧ s1.index_map = (if fl then (map_index s.index_map o).2 else s.index_map) := by
  rcases hmi : map_index s.index_map o with ⟨k, m1⟩
  cases fl with
  | false =>
    simp only [get_fifo_full, Bool.false_eq_true, if_false, Outcome.ret.injEq] at h
    rw [← h.2]
    simp
  | true =>
    cases hfl : s.fifo.full[k]? with
    | none => simp [get_fifo_full, hmi, hfl] at h
    | some b2 =>
      simp only [get_fifo_full, hmi, hfl, if_true, Outcome.ret.injEq] at h
      rw [← h.2]
      simp

theorem get_fifo_empty_ret {s s1 : Mem} {fl b : Bool} {o : Nat}
    (h : get_fifo_empty s fl o = .ret b s1) :
    s1.fifo = s.fifo ∧ s1.index_map = (if fl then (map_index s.index_map o).2 else s.index_map) := by
  rcases hmi : map_index s.index_map o with ⟨k, m1⟩
  cases fl with
  | false =>
    simp only [get_fifo_empty, Bool.false_eq_true, if_false, Outcome.ret.injEq] at h
    rw [← h.2]
    simp
  | true =>
    cases hq : s.fifo.fifo[k]? with
    | none => simp [get_fifo_empty, hmi, hq] at h
    | some q =>
      simp only [get_fifo_empty, hmi, hq, if_true, Outcome.ret.injEq] at h
      rw [← h.2]
      simp

theorem get_fifo_size_ret {s s1 : Mem} {n o : Nat} (h : get_fifo_size s o = .ret n s1) :
    s1.fifo = s.fifo ∧ s1.index_map = (map_index s.index_map o).2 := by
  rcases hmi : map_index s.index_map o with ⟨k, m1⟩
  cases hq : s.fifo.fifo[k]? with
  | none => simp [get_fifo_size, hmi, hq] at h
  | some q =>
    simp only [get_fifo_size, hmi, hq, Outcome.ret.injEq] at h
    rw [← h.2]
    simp

theorem fifo_write_ret {C : Nat} {s s1 : Mem} {o v : Nat} {b : Bool}
    (h : fifo_write C s o v = .ret b s1) :
    s1.index_map = (map_index s.index_map o).2 ∧ s1.fifo.credits = s.fifo.credits ∧
      s1.fifo.init = s.fifo.init := by
  obtain ⟨m, f⟩ := s
  rcases hmi : map_index m o with ⟨k, m1⟩
  have hk1 := map_index_again hmi
  cases hi : f.init with
  | false => simp [fifo_write, hi] at h
  | true =>
    cases hfl : f.full[k]? with
    | none => simp [fifo_write, hi, get_fifo_full, hmi, hfl, Outcome.bind] at h
    | some b2 =>
      cases hq : f.fifo[k]? with
      | none =>
        cases b2 with
        | true =>
          simp only [fifo_write, hi, get_fifo_full_lane hmi hfl, Outcome.bind, if_true,
            Bool.not_true, Bool.false_eq_true, if_false, Outcome.ret.injEq] at h
          rw [← h.2]
          simp [hi]
        | false =>
          simp [fifo_write, hi, get_fifo_full_lane hmi hfl, Outcome.bind, hk1, hq] at h
      | some q =>
        rw [fifo_write_lane C v hmi hi hq hfl] at h
        cases b2 with
        | true =>
          simp only [if_true, Outcome.ret.injEq] at h
          rw [← h.2]
          simp [hi]
        | false =>
          simp only [Bool.false_eq_true, if_false, Outcome.ret.injEq] at h
          rw [← h.2]
          simp [hi]

theorem fifo_read_ret {C : Nat} {s s1 : Mem} {o val : Nat} {r : Bool × Nat}
    (h : fifo_read C s o val = .ret r s1) :
    s1.index_map = (map_index s.index_map o).2 ∧ s1.fifo.credits = s.fifo.credits ∧
      s1.fifo.init = s.fifo.init := by
  obtain ⟨m, f⟩ := s
  rcases hmi : map_index m o with ⟨k, m1⟩
  have hk1 := map_index_again hmi
  cases hi : f.init with
  | false => simp [fifo_read, hi] at h
  | true =>
    cases hq : f.fifo[k]? with
    | none => simp [fifo_read, hi, get_fifo_empty, hmi, hq, Outcome.bind] at h
    | some q =>
      by_cases hlf : k < f.full.length
      · rw [fifo_read_lane C val hmi hi hq hlf] at h
        cases q with
        | nil =>
          simp only [Outcome.ret.injEq] at h
          rw [← h.2]
          simp [hi]
        | cons front rest =>
          simp only [Outcome.ret.injEq] at h
          rw [← h.2]
          simp [hi]
      · cases q with
        | nil =>
          simp only [fifo_read, hi, get_fifo_empty_lane hmi hq, Outcome.bind, List.isEmpty_nil,
            if_true, Bool.not_true, Bool.false_eq_true, if_false, Outcome.ret.injEq] at h
          rw [← h.2]
          simp [hi]
        | cons front rest =>
          have hlq : k < f.fifo.length := (List.getElem?_eq_some.1 hq).1
          simp [fifo_read, hi, get_fifo_empty_lane hmi hq, Outcome.bind, hk1, hq,
            set_fifo_full, get_fifo_size, List.getElem?_set, hlq, hlf] at h

end Dromajo

namespace Dromajo

/-! ## The dispatching functions -/

theorem with_host_to_mc_req_ret {α : Type} {g g1 : Globals} {op : Mem → Outcome Mem α} {a : α}
    (h : with_host_to_mc_req g op = .ret a g1) :
    ∃ s, op ⟨g.index_map, g.host_to_mc_req_fifo⟩ = .ret a s ∧
      g1 = { g with index_map := s.index_map, host_to_mc_req_fifo := s.fifo } := by
  unfold with_host_to_mc_req at h
  cases hop : op ⟨g.index_map, g.host_to_mc_req_fifo⟩ with
  | ret a2 s =>
    rw [hop] at h
    simp only [Outcome.ret.injEq] at h
    exact ⟨s, by rw [h.1], h.2.symm⟩
  | exited s => rw [hop] at h; simp at h
  | undefined => rw [hop] at h; simp at h

theorem with_mc_to_host_req_ret {α : Type} {g g1 : Globals} {op : Mem → Outcome Mem α} {a : α}
    (h : with_mc_to_host_req g op = .ret a g1) :
    g1.host_to_mc_req_fifo = g.host_to_mc_req_fifo := by
  unfold with_mc_to_host_req at h
  cases hop : op ⟨g.index_map, g.mc_to_host_req_fifo⟩ with
  | ret a2 s =>
    rw [hop] at h
    simp only [Outcome.ret.injEq] at h
    rw [← h.2]
  | exited s => rw [hop] at h; simp at h
  | undefined => rw [hop] at h; simp at h

theorem with_mc_to_host_resp_ret {α : Type} {g g1 : Globals} {op : Mem → Outcome Mem α} {a : α}
    (h : with_mc_to_host_resp g op = .ret a g1) :
    g1.host_to_mc_req_fifo = g.host_to_mc_req_fifo := by
  unfold with_mc_to_host_resp at h
  cases hop : op ⟨g.index_map, g.mc_to_host_resp_fifo⟩ with
  | ret a2 s =>
    rw [hop] at h
    simp only [Outcome.ret.injEq] at h
    rw [← h.2]
  | exited s => rw [hop] at h; simp at h
  | undefined => rw [hop] at h; simp at h

/-- A returning call of a dispatching function leaves the credits of the host-to-manycore
request channel as they were, provided the channel-level call does. -/
theorem dispatch_host_credits {α : Type} {g g1 : Globals} {type : Nat} {a : α}
    (op : Mem → Outcome Mem α)
    (hop : ∀ s s1 a, op s = .ret a s1 → s1.fifo.credits = s.fifo.credits)
    (h : (if type = FIFO_HOST_TO_MC_REQ then with_host_to_mc_req g op
      else if type = FIFO_MC_TO_HOST_REQ then with_mc_to_host_req g op
      else if type = FIFO_MC_TO_HOST_RESP then with_mc_to_host_resp g op
      else .exited g) = .ret a g1) :
    g1.host_to_mc_req_fifo.credits = g.host_to_mc_req_fifo.credits := by
  split at h
  · obtain ⟨s, hs, rfl⟩ := with_host_to_mc_req_ret h
    exact hop _ _ _ hs
  · split at h
    · rw [with_mc_to_host_req_ret h]
    · split at h
      · rw [with_mc_to_host_resp_ret h]
      · simp at h

theorem greachable_credits (C : Nat) {g : Globals} (hg : GReachable C g) :
    g.host_to_mc_req_fifo.credits = 15 := by
  induction hg with
  | init g0 g h =>
    obtain ⟨s, hs, rfl⟩ := with_host_to_mc_req_ret h
    exact (mc_fifo_init_ret hs).2.2.1
  | write g g1 type fifo_id val b _ h ih =>
    rw [← ih]
    exact dispatch_host_credits (fun s => fifo_write C s fifo_id val)
      (fun _ _ _ hs => (fifo_write_ret hs).2.1) h
  | read g g1 type fifo_id val r _ h ih =>
    rw [← ih]
    exact dispatch_host_credits (fun s => fifo_read C s fifo_id val)
      (fun _ _ _ hs => (fifo_read_ret hs).2.1) h
  | full g g1 type fl fifo_id b _ h ih =>
    rw [← ih]
    exact dispatch_host_credits (fun s => get_fifo_full s fl fifo_id)
      (fun _ _ _ hs => by rw [(get_fifo_full_ret hs).1]) h
  | empty_host_to_mc_req g g1 fl fifo_id b _ h ih =>
    rw [← ih]
    obtain ⟨s, hs, rfl⟩ := with_host_to_mc_req_ret h
    simp only
    rw [(get_fifo_empty_ret hs).1]
  | empty_mc_to_host_req g g1 fl fifo_id b _ h ih =>
    rw [← ih, with_mc_to_host_req_ret h]
  | empty_mc_to_host_resp g g1 fl fifo_id b _ h ih =>
    rw [← ih, with_mc_to_host_resp_ret h]

/-- C15: after `mc_fifo_init` on the host-to-manycore request channel (a channel with four
lanes) the credit query for that direction returns 15; and in every memory reachable from
there by writes, reads, fullness queries and emptiness queries on any channel and with any
arguments, it returns the credits field of that channel, which is still 15 and so lies
between 0 and `MAX_CREDITS`. -/
theorem C15_credits_stay_fifteen (C : Nat) (g0 : Globals) (credits : Int)
    (h4 : four_lanes g0.host_to_mc_req_fifo) (g : Globals) (hg : GReachable C g) :
    (∃ g1, with_host_to_mc_req g0 mc_fifo_init = .ret () g1 ∧
      mc_fifo_get_credits g1 FIFO_HOST_TO_MC_REQ credits = .ret 15 g1) ∧
    (∃ v, mc_fifo_get_credits g FIFO_HOST_TO_MC_REQ credits = .ret v g ∧
      v = g.host_to_mc_req_fifo.credits ∧ v = 15 ∧ 0 ≤ v ∧ v ≤ MAX_CREDITS) := by
  constructor
  · have hinit := mc_fifo_init_eq ⟨g0.index_map, g0.host_to_mc_req_fifo⟩ h4
    refine ⟨{ g0 with host_to_mc_req_fifo :=
        ⟨[[], [], [], []], true, [false, false, false, false], 15⟩ }, ?_, ?_⟩
    · simp only [with_host_to_mc_req, hinit]
    · simp [mc_fifo_get_credits, with_host_to_mc_req, get_fifo_credits]
  · have hc := greachable_credits C hg
    refine ⟨g.host_to_mc_req_fifo.credits, ?_, rfl, hc, ?_, ?_⟩
    · simp [mc_fifo_get_credits, with_host_to_mc_req, get_fifo_credits]
    · rw [hc]; decide
    · rw [hc]; decide

/-- Witness of C15: capacity 1; the memory after the initialisation of the request channel
and a write of 7 to its offset 0. -/
theorem C15_credits_stay_fifteen_witness :
    (∃ g1, with_host_to_mc_req
        ⟨index_map, ⟨[[1], [], [], []], false, [true, false, false, false], 3⟩,
          ⟨[[], [], [], []], false, [false, false, false, false], 0⟩,
          ⟨[[], [], [], []], false, [false, false, false, false], 0⟩⟩
        mc_fifo_init = .ret () g1 ∧
      mc_fifo_get_credits g1 FIFO_HOST_TO_MC_REQ 42 = .ret 15 g1) ∧
    (∃ v, mc_fifo_get_credits
        ⟨index_map, ⟨[[7], [], [], []], true, [true, false, false, false], 15⟩,
          ⟨[[], [], [], []], false, [false, false, false, false], 0⟩,
          ⟨[[], [], [], []], false, [false, false, false, false], 0⟩⟩
        FIFO_HOST_TO_MC_REQ 42 =
        .ret v ⟨index_map, ⟨[[7], [], [], []], true, [true, false, false, false], 15⟩,
          ⟨[[], [], [], []], false, [false, false, false, false], 0⟩,
          ⟨[[], [], [], []], false, [false, false, false, false], 0⟩⟩ ∧
      v = (Globals.mk index_map ⟨[[7], [], [], []], true, [true, false, false, false], 15⟩
          ⟨[[], [], [], []], false, [false, false, false, false], 0⟩
          ⟨[[], [], [], []], false, [false, false, false, false], 0⟩).host_to_mc_req_fifo.credits ∧
      v = 15 ∧ 0 ≤ v ∧ v ≤ MAX_CREDITS) :=
  C15_credits_stay_fifteen 1
    ⟨index_map, ⟨[[1], [], [], []], false, [true, false, false, false], 3⟩,
      ⟨[[], [], [], []], false, [false, false, false, false], 0⟩,
      ⟨[[], [], [], []], false, [false, false, false, false], 0⟩⟩
    42 (by decide) _
    (GReachable.write
      ⟨index_map, ⟨[[], [], [], []], true, [false, false, false, false], 15⟩,
        ⟨[[], [], [], []], false, [false, false, false, false], 0⟩,
        ⟨[[], [], [], []], false, [false, false, false, false], 0⟩⟩
      _ FIFO_HOST_TO_MC_REQ 0 7 true
      (GReachable.init
        ⟨index_map, ⟨[[1], [], [], []], false, [true, false, false, false], 3⟩,
          ⟨[[], [], [], []], false, [false, false, false, false], 0⟩,
          ⟨[[], [], [], []], false, [false, false, false, false], 0⟩⟩
        _ (by decide))
      (by decide))

end Dromajo

namespace Dromajo

/-! ## The index map after a call -/

theorem lookup_map_insert_ne (o v k : Nat) (m : IndexMap) (hne : k ≠ o) :
    (map_insert o v m).lookup k = m.lookup k := by
  have hko : (k == o) = false := by simpa using hne
  induction m with
  | nil => simp [map_insert, List.lookup, hko]
  | cons e rest ih =>
    obtain ⟨k1, v1⟩ := e
    by_cases hlt : o < k1
    · simp [map_insert, hlt, List.lookup, hko]
    · simp only [map_insert, hlt, if_false, List.lookup]
      rw [ih]

theorem lookup_map_index_ne (m : IndexMap) (o k : Nat) (hne : k ≠ o) :
    (map_index m o).2.lookup k = m.lookup k := by
  cases hl : m.lookup o with
  | some w => simp [map_index, hl]
  | none => simp [map_index, hl, lookup_map_insert_ne o 0 k m hne]

theorem lookup_map_index_keeps (m : IndexMap) (o k w : Nat) (h : m.lookup k = some w) :
    (map_index m o).2.lookup k = some w := by
  by_cases hko : k = o
  · subst hko
    simp [map_index, h]
  · rw [lookup_map_index_ne m o k hko, h]

/-- The lane that an offset resolves to is one of the four lanes. -/
theorem map_index_lane_lt {m : IndexMap} (hm : index_map_ok m) (hz : index_map_extra_zero m)
    (o : Nat) : (map_index m o).1 < 4 := by
  by_cases ho : o ∈ canonical
  · rw [map_index_ok hm ho]
    exact lane_lt_four ho
  · rw [congrArg Prod.fst (map_index_extra hz ho)]
    exact Nat.zero_lt_succ 3

/-- C16 fails as stated: with the static index map, each of the five operations called with
offset 1 returns and leaves an index map with the new entry `1 ↦ 0`. -/
theorem C16_counterexample :
    1 ∉ canonical ∧
    fifo_write 1 ⟨index_map, ⟨[[], [], [], []], true, [false, false, false, false], 15⟩⟩ 1 7 =
      .ret true ⟨[(0, 0), (1, 0), (4, 1), (8, 2), (12, 3)],
        ⟨[[7], [], [], []], true, [true, false, false, false], 15⟩⟩ ∧
    fifo_read 1 ⟨index_map, ⟨[[], [], [], []], true, [false, false, false, false], 15⟩⟩ 1 0 =
      .ret (false, 0) ⟨[(0, 0), (1, 0), (4, 1), (8, 2), (12, 3)],
        ⟨[[], [], [], []], true, [false, false, false, false], 15⟩⟩ ∧
    get_fifo_full ⟨index_map, ⟨[[], [], [], []], true, [false, false, false, false], 15⟩⟩
        true 1 =
      .ret false ⟨[(0, 0), (1, 0), (4, 1), (8, 2), (12, 3)],
        ⟨[[], [], [], []], true, [false, false, false, false], 15⟩⟩ ∧
    get_fifo_empty ⟨index_map, ⟨[[], [], [], []], true, [false, false, false, false], 15⟩⟩
        true 1 =
      .ret true ⟨[(0, 0), (1, 0), (4, 1), (8, 2), (12, 3)],
        ⟨[[], [], [], []], true, [false, false, false, false], 15⟩⟩ ∧
    get_fifo_size ⟨index_map, ⟨[[], [], [], []], true, [false, false, false, false], 15⟩⟩ 1 =
      .ret 0 ⟨[(0, 0), (1, 0), (4, 1), (8, 2), (12, 3)],
        ⟨[[], [], [], []], true, [false, false, false, false], 15⟩⟩ ∧
    [(0, 0), (1, 0), (4, 1), (8, 2), (12, 3)] ≠ index_map := by
  decide

/-- C16, amended: on an initialised channel with four lanes, each of the five operations
(write, read, per-lane fullness query, per-lane emptiness query, size query) returns for
every offset `o` and leaves the index map that `index_map[o]` leaves. For a canonical offset
that is the index map of before the call. For any offset no entry is removed or changed, and
every other key is mapped as before; an offset that is not canonical is mapped to lane 0
after the call. -/
theorem C16_directory_only_grows (C : Nat) (s : Mem) (o v val : Nat)
    (hm : index_map_ok s.index_map) (hz : index_map_extra_zero s.index_map)
    (hi : s.fifo.init = true) (h4 : four_lanes s.fifo) :
    (∃ b f1, fifo_write C s o v = .ret b ⟨(map_index s.index_map o).2, f1⟩) ∧
    (∃ r f1, fifo_read C s o val = .ret r ⟨(map_index s.index_map o).2, f1⟩) ∧
    (∃ b, get_fifo_full s true o = .ret b ⟨(map_index s.index_map o).2, s.fifo⟩) ∧
    (∃ b, get_fifo_empty s true o = .ret b ⟨(map_index s.index_map o).2, s.fifo⟩) ∧
    (∃ n, get_fifo_size s o = .ret n ⟨(map_index s.index_map o).2, s.fifo⟩) ∧
    (o ∈ canonical → (map_index s.index_map o).2 = s.index_map) ∧
    (∀ k w, s.index_map.lookup k = some w → (map_index s.index_map o).2.lookup k = some w) ∧
    (∀ k, k ≠ o → (map_index s.index_map o).2.lookup k = s.index_map.lookup k) ∧
    (o ∉ canonical → (map_index s.index_map o).2.lookup o = some 0) := by
  obtain ⟨m, f⟩ := s
  simp only at hm hz hi h4 ⊢
  have hlt := map_index_lane_lt hm hz o
  have hmi : map_index m o = ((map_index m o).1, (map_index m o).2) := rfl
  obtain ⟨q, b, hq, hb⟩ := four_lanes_lane h4 hlt
  have hlf : (map_index m o).1 < f.full.length := (List.getElem?_eq_some.1 hb).1
  refine ⟨?_, ?_, ⟨b, get_fifo_full_lane hmi hb⟩, ⟨_, get_fifo_empty_lane hmi hq⟩,
    ⟨_, get_fifo_size_lane hmi hq⟩, ?_, ?_, ?_, ?_⟩
  · rw [fifo_write_lane C v hmi hi hq hb]
    cases b with
    | true => exact ⟨false, f, rfl⟩
    | false => exact ⟨true, _, rfl⟩
  · rw [fifo_read_lane C val hmi hi hq hlf]
    cases q with
    | nil => exact ⟨(false, val), f, rfl⟩
    | cons front rest => exact ⟨(true, front), _, rfl⟩
  · intro ho
    rw [map_index_ok hm ho]
  · intro k w hk
    exact lookup_map_index_keeps m o k w hk
  · intro k hk
    exact lookup_map_index_ne m o k hk
  · intro ho
    rw [lookup_after_map_index, congrArg Prod.fst (map_index_extra hz ho)]

/-- Witness of the amended C16: offset 5 on an initialised channel of capacity 2. -/
theorem C16_directory_only_grows_witness :
    (∃ b f1,
      fifo_write 2 ⟨index_map, ⟨[[5], [], [], []], true, [false, false, false, false], 15⟩⟩
        5 6 = .ret b ⟨(map_index index_map 5).2, f1⟩) ∧
    (∃ r f1,
      fifo_read 2 ⟨index_map, ⟨[[5], [], [], []], true, [false, false, false, false], 15⟩⟩
        5 0 = .ret r ⟨(map_index index_map 5).2, f1⟩) ∧
    (∃ b,
      get_fifo_full ⟨index_map, ⟨[[5], [], [], []], true, [false, false, false, false], 15⟩⟩
        true 5 =
        .ret b ⟨(map_index index_map 5).2,
          ⟨[[5], [], [], []], true, [false, false, false, false], 15⟩⟩) ∧
    (∃ b,
      get_fifo_empty ⟨index_map, ⟨[[5], [], [], []], true, [false, false, false, false], 15⟩⟩
        true 5 =
        .ret b ⟨(map_index index_map 5).2,
          ⟨[[5], [], [], []], true, [false, false, false, false], 15⟩⟩) ∧
    (∃ n,
      get_fifo_size ⟨index_map, ⟨[[5], [], [], []], true, [false, false, false, false], 15⟩⟩
        5 =
        .ret n ⟨(map_index index_map 5).2,
          ⟨[[5], [], [], []], true, [false, false, false, false], 15⟩⟩) ∧
    (5 ∈ canonical → (map_index index_map 5).2 = index_map) ∧
    (∀ k w, index_map.lookup k = some w → (map_index index_map 5).2.lookup k = some w) ∧
    (∀ k, k ≠ 5 → (map_index index_map 5).2.lookup k = index_map.lookup k) ∧
    (5 ∉ canonical → (map_index index_map 5).2.lookup 5 = some 0) :=
  C16_directory_only_grows 2
    ⟨index_map, ⟨[[5], [], [], []], true, [false, false, false, false], 15⟩⟩ 5 6 0
    (by decide) (by decide) rfl (by decide)

end Dromajo

namespace Dromajo

/-- C17: the capacity-1 scenario, for all words `v` and `w`. After `mc_fifo_init` on a channel
with four lanes, a write of `v` to `0x0` returns true and the per-lane fullness of lane 0 is
true; a write of `w` to `0x0` then returns false and changes nothing, so lane 0 still holds
exactly `v`; a read from `0x0` then returns true with the word `v` and leaves lane 0 empty
with its flag false; a further read from `0x0` returns false. -/
theorem C17_capacity_one_scenario (s0 : Mem) (v w val : Nat)
    (hm : index_map_ok s0.index_map) (h4 : four_lanes s0.fifo) :
    mc_fifo_init s0 =
      .ret () ⟨s0.index_map, ⟨[[], [], [], []], true, [false, false, false, false], 15⟩⟩ ∧
    fifo_write 1
        ⟨s0.index_map, ⟨[[], [], [], []], true, [false, false, false, false], 15⟩⟩ 0x0 v =
      .ret true ⟨s0.index_map, ⟨[[v], [], [], []], true, [true, false, false, false], 15⟩⟩ ∧
    get_fifo_full
        ⟨s0.index_map, ⟨[[v], [], [], []], true, [true, false, false, false], 15⟩⟩ true 0x0 =
      .ret true ⟨s0.index_map, ⟨[[v], [], [], []], true, [true, false, false, false], 15⟩⟩ ∧
    fifo_write 1
        ⟨s0.index_map, ⟨[[v], [], [], []], true, [true, false, false, false], 15⟩⟩ 0x0 w =
      .ret false ⟨s0.index_map, ⟨[[v], [], [], []], true, [true, false, false, false], 15⟩⟩ ∧
    fifo_read 1
        ⟨s0.index_map, ⟨[[v], [], [], []], true, [true, false, false, false], 15⟩⟩ 0x0 val =
      .ret (true, v)
        ⟨s0.index_map, ⟨[[], [], [], []], true, [false, false, false, false], 15⟩⟩ ∧
    get_fifo_empty
        ⟨s0.index_map, ⟨[[], [], [], []], true, [false, false, false, false], 15⟩⟩ true 0x0 =
      .ret true ⟨s0.index_map, ⟨[[], [], [], []], true, [false, false, false, false], 15⟩⟩ ∧
    get_fifo_full
        ⟨s0.index_map, ⟨[[], [], [], []], true, [false, false, false, false], 15⟩⟩ true 0x0 =
      .ret false ⟨s0.index_map, ⟨[[], [], [], []], true, [false, false, false, false], 15⟩⟩ ∧
    fifo_read 1
        ⟨s0.index_map, ⟨[[], [], [], []], true, [false, false, false, false], 15⟩⟩ 0x0 v =
      .ret (false, v)
        ⟨s0.index_map, ⟨[[], [], [], []], true, [false, false, false, false], 15⟩⟩ := by
  have hk := map_index_ok hm (o := 0) (by decide)
  simp only [Nat.reduceDiv] at hk
  refine ⟨mc_fifo_init_eq s0 h4, ?_, ?_, ?_, ?_, ?_, ?_, ?_⟩
  · rw [fifo_write_lane (q := []) (b := false) 1 v
      (f := ⟨[[], [], [], []], true, [false, false, false, false], 15⟩) hk rfl
      (by simp) (by simp)]
    simp
  · rw [get_fifo_full_lane (b := true)
      (f := ⟨[[v], [], [], []], true, [true, false, false, false], 15⟩) hk (by simp)]
  · rw [fifo_write_lane (q := [v]) (b := true) 1 w
      (f := ⟨[[v], [], [], []], true, [true, false, false, false], 15⟩) hk rfl
      (by simp) (by simp)]
    simp
  · rw [fifo_read_lane (q := [v]) 1 val
      (f := ⟨[[v], [], [], []], true, [true, false, false, false], 15⟩) hk rfl
      (by simp) (by simp)]
    simp
  · rw [get_fifo_empty_lane (q := [])
      (f := ⟨[[], [], [], []], true, [false, false, false, false], 15⟩) hk (by simp)]
    simp
  · rw [get_fifo_full_lane (b := false)
      (f := ⟨[[], [], [], []], true, [false, false, false, false], 15⟩) hk (by simp)]
  · rw [fifo_read_lane (q := []) 1 v
      (f := ⟨[[], [], [], []], true, [false, false, false, false], 15⟩) hk rfl
      (by simp) (by simp)]

/-- Witness of C17: the words `0xAAAA` and `0xBBBB` of the scenario of the spec, on a channel
that holds words before `mc_fifo_init`. -/
theorem C17_capacity_one_scenario_witness :
    mc_fifo_init ⟨index_map, ⟨[[1], [2, 3], [], [9]], false, [true, true, false, false], 3⟩⟩ =
      .ret () ⟨index_map, ⟨[[], [], [], []], true, [false, false, false, false], 15⟩⟩ ∧
    fifo_write 1 ⟨index_map, ⟨[[], [], [], []], true, [false, false, false, false], 15⟩⟩ 0x0 0xAAAA =
      .ret true ⟨index_map, ⟨[[0xAAAA], [], [], []], true, [true, false, false, false], 15⟩⟩ ∧
    get_fifo_full ⟨index_map, ⟨[[0xAAAA], [], [], []], true, [true, false, false, false], 15⟩⟩ true 0x0 =
      .ret true ⟨index_map, ⟨[[0xAAAA], [], [], []], true, [true, false, false, false], 15⟩⟩ ∧
    fifo_write 1 ⟨index_map, ⟨[[0xAAAA], [], [], []], true, [true, false, false, false], 15⟩⟩ 0x0 0xBBBB =
      .ret false ⟨index_map, ⟨[[0xAAAA], [], [], []], true, [true, false, false, false], 15⟩⟩ ∧
    fifo_read 1 ⟨index_map, ⟨[[0xAAAA], [], [], []], true, [true, false, false, false], 15⟩⟩ 0x0 0 =
      .ret (true, 0xAAAA) ⟨index_map, ⟨[[], [], [], []], true, [false, false, false, false], 15⟩⟩ ∧
    get_fifo_empty ⟨index_map, ⟨[[], [], [], []], true, [false, false, false, false], 15⟩⟩ true 0x0 =
      .ret true ⟨index_map, ⟨[[], [], [], []], true, [false, false, false, false], 15⟩⟩ ∧
    get_fifo_full ⟨index_map, ⟨[[], [], [], []], true, [false, false, false, false], 15⟩⟩ true 0x0 =
      .ret false ⟨index_map, ⟨[[], [], [], []], true, [false, false, false, false], 15⟩⟩ ∧
    fifo_read 1 ⟨index_map, ⟨[[], [], [], []], true, [false, false, false, false], 15⟩⟩ 0x0 0xAAAA =
      .ret (false, 0xAAAA) ⟨index_map, ⟨[[], [], [], []], true, [false, false, false, false], 15⟩⟩ :=
  C17_capacity_one_scenario
    ⟨index_map, ⟨[[1], [2, 3], [], [9]], false, [true, true, false, false], 3⟩⟩
    0xAAAA 0xBBBB 0 (by decide) (by decide)

/-- C18: for each of the three directions `d`, `mc_fifo_write` and `mc_fifo_read` have the
outcome of `fifo_write` and `fifo_read` on the channel of direction `d`, seen in the memory
of the whole program: the result is the same, the channel of direction `d` (and the index
map) is as the channel-level call leaves it, and the other two channels are unchanged. -/
theorem C18_channels_independent (C : Nat) (g : Globals) (d o v val : Nat) (hd : d < 3) :
    mc_fifo_write C g d o v = (fifo_write C ⟨g.index_map, channel g d⟩ o v).lift g d ∧
    mc_fifo_read C g d o val = (fifo_read C ⟨g.index_map, channel g d⟩ o val).lift g d ∧
    (∀ s, channel (set_channel g d s) d = s.fifo ∧
      (set_channel g d s).index_map = s.index_map ∧
      ∀ e, e < 3 → e ≠ d → channel (set_channel g d s) e = channel g e) := by
  refine ⟨?_, ?_, ?_⟩
  · interval_cases d
    · simp only [mc_fifo_write, with_host_to_mc_req, channel, FIFO_HOST_TO_MC_REQ, if_true]
      cases fifo_write C ⟨g.index_map, g.host_to_mc_req_fifo⟩ o v <;>
        simp [Outcome.lift, set_channel, FIFO_HOST_TO_MC_REQ]
    · simp only [mc_fifo_write, with_mc_to_host_req, channel, FIFO_HOST_TO_MC_REQ,
        FIFO_MC_TO_HOST_REQ, if_true, Nat.succ_ne_zero, one_ne_zero, if_false]
      cases fifo_write C ⟨g.index_map, g.mc_to_host_req_fifo⟩ o v <;>
        simp [Outcome.lift, set_channel, FIFO_HOST_TO_MC_REQ, FIFO_MC_TO_HOST_REQ]
    · simp only [mc_fifo_write, with_mc_to_host_resp, channel, FIFO_HOST_TO_MC_REQ,
        FIFO_MC_TO_HOST_REQ, FIFO_MC_TO_HOST_RESP, if_true, OfNat.ofNat_ne_zero,
        OfNat.ofNat_ne_one, if_false]
      cases fifo_write C ⟨g.index_map, g.mc_to_host_resp_fifo⟩ o v <;>
        simp [Outcome.lift, set_channel, FIFO_HOST_TO_MC_REQ, FIFO_MC_TO_HOST_REQ]
  · interval_cases d
    · simp only [mc_fifo_read, with_host_to_mc_req, channel, FIFO_HOST_TO_MC_REQ, if_true]
      cases fifo_read C ⟨g.index_map, g.host_to_mc_req_fifo⟩ o val <;>
        simp [Outcome.lift, set_channel, FIFO_HOST_TO_MC_REQ]
    · simp only [mc_fifo_read, with_mc_to_host_req, channel, FIFO_HOST_TO_MC_REQ,
        FIFO_MC_TO_HOST_REQ, if_true, Nat.succ_ne_zero, one_ne_zero, if_false]
      cases fifo_read C ⟨g.index_map, g.mc_to_host_req_fifo⟩ o val <;>
        simp [Outcome.lift, set_channel, FIFO_HOST_TO_MC_REQ, FIFO_MC_TO_HOST_REQ]
    · simp only [mc_fifo_read, with_mc_to_host_resp, channel, FIFO_HOST_TO_MC_REQ,
        FIFO_MC_TO_HOST_REQ, FIFO_MC_TO_HOST_RESP, if_true, OfNat.ofNat_ne_zero,
        OfNat.ofNat_ne_one, if_false]
      cases fifo_read C ⟨g.index_map, g.mc_to_host_resp_fifo⟩ o val <;>
        simp [Outcome.lift, set_channel, FIFO_HOST_TO_MC_REQ, FIFO_MC_TO_HOST_REQ]
  · intro s
    interval_cases d
    · refine ⟨by simp [channel, set_channel, FIFO_HOST_TO_MC_REQ],
        by simp [set_channel, FIFO_HOST_TO_MC_REQ], ?_⟩
      intro e he hne
      interval_cases e <;>
        simp [channel, set_channel, FIFO_HOST_TO_MC_REQ, FIFO_MC_TO_HOST_REQ] at hne ⊢
    · refine ⟨by simp [channel, set_channel, FIFO_HOST_TO_MC_REQ, FIFO_MC_TO_HOST_REQ],
        by simp [set_channel, FIFO_HOST_TO_MC_REQ, FIFO_MC_TO_HOST_REQ], ?_⟩
      intro e he hne
      interval_cases e <;>
        simp [channel, set_channel, FIFO_HOST_TO_MC_REQ, FIFO_MC_TO_HOST_REQ] at hne ⊢
    · refine ⟨by simp [channel, set_channel, FIFO_HOST_TO_MC_REQ, FIFO_MC_TO_HOST_REQ],
        by simp [set_channel, FIFO_HOST_TO_MC_REQ, FIFO_MC_TO_HOST_REQ], ?_⟩
      intro e he hne
      interval_cases e <;>
        simp [channel, set_channel, FIFO_HOST_TO_MC_REQ, FIFO_MC_TO_HOST_REQ] at hne ⊢

/-- Witness of C18: the direction `FIFO_MC_TO_HOST_REQ`, offset 4. -/
theorem C18_channels_independent_witness :
    mc_fifo_write 1
        ⟨index_map, ⟨[[], [], [], []], true, [false, false, false, false], 15⟩,
        ⟨[[5], [], [], []], true, [true, false, false, false], 15⟩,
        ⟨[[], [], [], []], false, [false, false, false, false], 0⟩⟩ 1 4 7 =
      (fifo_write 1 ⟨(Globals.mk index_map
          ⟨[[], [], [], []], true, [false, false, false, false], 15⟩
          ⟨[[5], [], [], []], true, [true, false, false, false], 15⟩
          ⟨[[], [], [], []], false, [false, false, false, false], 0⟩).index_map,
        channel
          ⟨index_map, ⟨[[], [], [], []], true, [false, false, false, false], 15⟩,
        ⟨[[5], [], [], []], true, [true, false, false, false], 15⟩,
        ⟨[[], [], [], []], false, [false, false, false, false], 0⟩⟩ 1⟩ 4 7).lift
        ⟨index_map, ⟨[[], [], [], []], true, [false, false, false, false], 15⟩,
        ⟨[[5], [], [], []], true, [true, false, false, false], 15⟩,
        ⟨[[], [], [], []], false, [false, false, false, false], 0⟩⟩ 1 ∧
    mc_fifo_read 1
        ⟨index_map, ⟨[[], [], [], []], true, [false, false, false, false], 15⟩,
        ⟨[[5], [], [], []], true, [true, false, false, false], 15⟩,
        ⟨[[], [], [], []], false, [false, false, false, false], 0⟩⟩ 1 4 0 =
      (fifo_read 1 ⟨(Globals.mk index_map
          ⟨[[], [], [], []], true, [false, false, false, false], 15⟩
          ⟨[[5], [], [], []], true, [true, false, false, false], 15⟩
          ⟨[[], [], [], []], false, [false, false, false, false], 0⟩).index_map,
        channel
          ⟨index_map, ⟨[[], [], [], []], true, [false, false, false, false], 15⟩,
        ⟨[[5], [], [], []], true, [true, false, false, false], 15⟩,
        ⟨[[], [], [], []], false, [false, false, false, false], 0⟩⟩ 1⟩ 4 0).lift
        ⟨index_map, ⟨[[], [], [], []], true, [false, false, false, false], 15⟩,
        ⟨[[5], [], [], []], true, [true, false, false, false], 15⟩,
        ⟨[[], [], [], []], false, [false, false, false, false], 0⟩⟩ 1 ∧
    (∀ s, channel (set_channel
          ⟨index_map, ⟨[[], [], [], []], true, [false, false, false, false], 15⟩,
        ⟨[[5], [], [], []], true, [true, false, false, false], 15⟩,
        ⟨[[], [], [], []], false, [false, false, false, false], 0⟩⟩ 1 s) 1 = s.fifo ∧
      (set_channel
          ⟨index_map, ⟨[[], [], [], []], true, [false, false, false, false], 15⟩,
        ⟨[[5], [], [], []], true, [true, false, false, false], 15⟩,
        ⟨[[], [], [], []], false, [false, false, false, false], 0⟩⟩ 1 s).index_map = s.index_map ∧
      ∀ e, e < 3 → e ≠ 1 → channel (set_channel
          ⟨index_map, ⟨[[], [], [], []], true, [false, false, false, false], 15⟩,
        ⟨[[5], [], [], []], true, [true, false, false, false], 15⟩,
        ⟨[[], [], [], []], false, [false, false, false, false], 0⟩⟩ 1 s) e =
        channel
          ⟨index_map, ⟨[[], [], [], []], true, [false, false, false, false], 15⟩,
        ⟨[[5], [], [], []], true, [true, false, false, false], 15⟩,
        ⟨[[], [], [], []], false, [false, false, false, false], 0⟩⟩ e) :=
  C18_channels_independent 1
    ⟨index_map, ⟨[[], [], [], []], true, [false, false, false, false], 15⟩,
        ⟨[[5], [], [], []], true, [true, false, false, false], 15⟩,
        ⟨[[], [], [], []], false, [false, false, false, false], 0⟩⟩ 1 4 7 0 (by decide)

end Dromajo

namespace Dromajo

/-! ## Runs of calls on one lane -/

theorem run_calls_lane (C : Nat) (hC : C < 4294967296) {o : Nat} (ho : o ∈ canonical)
    (cs : List LaneCall) :
    ∀ (val : Nat) (s : Mem) (q : List Nat), Inv C s → s.fifo.fifo[o / 4]? = some q →
      ∃ tr s2 q2, run_calls C o cs val s = .ret tr s2 ∧ Inv C s2 ∧
        s2.fifo.fifo[o / 4]? = some q2 ∧
        q2.length + reads_ok tr = q.length + writes_ok tr := by
  induction cs with
  | nil =>
    intro val s q hs hq
    exact ⟨[], s, q, rfl, hs, hq, rfl⟩
  | cons c cs ih =>
    intro val s q hs hq
    obtain ⟨hm, hi, hl⟩ := hs
    obtain ⟨q1, b, hq1, hb, _, _⟩ := hl (o / 4) (lane_lt_four ho)
    rw [hq] at hq1
    simp only [Option.some.injEq] at hq1
    subst hq1
    have hlq : o / 4 < s.fifo.fifo.length := (List.getElem?_eq_some.1 hq).1
    have hlf : o / 4 < s.fifo.full.length := (List.getElem?_eq_some.1 hb).1
    cases c with
    | write v =>
      have hw := fifo_write_lane (m := s.index_map) (f := s.fifo) C v (map_index_ok hm ho)
        hi hq hb
      cases b with
      | true =>
        simp only [if_true] at hw
        obtain ⟨tr, s2, q2, hrun, hinv, hq2, hcount⟩ := ih val s q ⟨hm, hi, hl⟩ hq
        refine ⟨(.write v, false) :: tr, s2, q2, ?_, hinv, hq2, ?_⟩
        · simp [run_calls, hw, hrun, Outcome.bind]
        · simpa [writes_ok, reads_ok] using hcount
      | false =>
        simp only [Bool.false_eq_true, if_false] at hw
        have hinv1 := inv_write C hC ⟨hm, hi, hl⟩ ho hw
        obtain ⟨tr, s2, q2, hrun, hinv, hq2, hcount⟩ := ih val _ (q ++ [v]) hinv1
          (by simp [List.getElem?_set, hlq])
        refine ⟨(.write v, true) :: tr, s2, q2, ?_, hinv, hq2, ?_⟩
        · simp [run_calls, hw, hrun, Outcome.bind]
        · simp only [List.length_append, List.length_singleton] at hcount
          simp only [writes_ok, reads_ok]
          omega
    | read =>
      have hr := fifo_read_lane (m := s.index_map) (f := s.fifo) C val (map_index_ok hm ho)
        hi hq hlf
      cases q with
      | nil =>
        simp only at hr
        obtain ⟨tr, s2, q2, hrun, hinv, hq2, hcount⟩ := ih val s [] ⟨hm, hi, hl⟩ hq
        refine ⟨(.read, false) :: tr, s2, q2, ?_, hinv, hq2, ?_⟩
        · simp [run_calls, hr, hrun, Outcome.bind]
        · simpa [writes_ok, reads_ok] using hcount
      | cons front rest =>
        simp only at hr
        have hinv1 := inv_read C hC ⟨hm, hi, hl⟩ ho hr
        obtain ⟨tr, s2, q2, hrun, hinv, hq2, hcount⟩ := ih front _ rest hinv1
          (by simp [List.getElem?_set, hlq])
        refine ⟨(.read, true) :: tr, s2, q2, ?_, hinv, hq2, ?_⟩
        · simp [run_calls, hr, hrun, Outcome.bind]
        · simp only [List.length_cons] at hcount ⊢
          simp only [writes_ok, reads_ok]
          omega

/-- With `FIFO_MAX_ELEMENTS = 2 ^ 32` every one of `n` writes to lane 0 returns true. -/
theorem run_calls_replicate (n : Nat) :
    ∀ (k val : Nat),
      run_calls 4294967296 0 (List.replicate n (LaneCall.write 0)) val
        ⟨index_map, ⟨[List.replicate k 0, [], [], []], true,
          [false, false, false, false], 15⟩⟩ =
      .ret (List.replicate n (LaneCall.write 0, true))
        ⟨index_map, ⟨[List.replicate (k + n) 0, [], [], []], true,
          [false, false, false, false], 15⟩⟩ := by
  induction n with
  | zero => intro k val; rfl
  | succ n ih =>
    intro k val
    have hlt := Nat.mod_lt ((List.replicate k 0).length + 1) (by norm_num : 0 < 4294967296)
    have hmod : ¬ ((List.replicate k 0).length + 1) % 4294967296 = 4294967296 := by omega
    have hw := fifo_write_lane_zero 4294967296 0 (List.replicate k 0) [] [] [] false false
      false 15
    rw [decide_eq_false hmod, ← List.replicate_succ'] at hw
    have hih := ih (k + 1) val
    rw [show k + 1 + n = k + (n + 1) by omega] at hih
    have e1 : List.replicate (n + 1) (LaneCall.write 0) =
        LaneCall.write 0 :: List.replicate n (LaneCall.write 0) := List.replicate_succ _ _
    have e2 : List.replicate (n + 1) (LaneCall.write 0, true) =
        (LaneCall.write 0, true) :: List.replicate n (LaneCall.write 0, true) :=
      List.replicate_succ _ _
    rw [e1, e2]
    simp only [run_calls, hw, hih, Outcome.bind]

theorem writes_ok_replicate (n : Nat) :
    writes_ok (List.replicate n (LaneCall.write 0, true)) = n := by
  induction n with
  | zero => rfl
  | succ n ih => simp [List.replicate_succ, writes_ok, ih]

theorem reads_ok_replicate (n : Nat) :
    reads_ok (List.replicate n (LaneCall.write 0, true)) = 0 := by
  induction n with
  | zero => rfl
  | succ n ih => simp [List.replicate_succ, reads_ok, ih]

end Dromajo

namespace Dromajo

/-- C19 fails as stated: with capacity `C = 2 ^ 32`, after `mc_fifo_init` each of `2 ^ 32`
writes to offset 0 returns true and no read is made, but the size query for lane 0 then
returns 0, because `get_fifo_size` narrows the size to `uint32_t`. -/
theorem C19_counterexample :
    mc_fifo_init ⟨index_map, ⟨[[], [], [], []], false, [false, false, false, false], 0⟩⟩ =
      .ret () ⟨index_map, ⟨[[], [], [], []], true, [false, false, false, false], 15⟩⟩ ∧
    run_calls 4294967296 0 (List.replicate 4294967296 (LaneCall.write 0)) 0
        ⟨index_map, ⟨[[], [], [], []], true, [false, false, false, false], 15⟩⟩ =
      .ret (List.replicate 4294967296 (LaneCall.write 0, true))
        ⟨index_map, ⟨[List.replicate 4294967296 0, [], [], []], true,
          [false, false, false, false], 15⟩⟩ ∧
    writes_ok (List.replicate 4294967296 (LaneCall.write 0, true)) = 4294967296 ∧
    reads_ok (List.replicate 4294967296 (LaneCall.write 0, true)) = 0 ∧
    get_fifo_size
        ⟨index_map, ⟨[List.replicate 4294967296 0, [], [], []], true,
          [false, false, false, false], 15⟩⟩ 0 =
      .ret 0 ⟨index_map, ⟨[List.replicate 4294967296 0, [], [], []], true,
        [false, false, false, false], 15⟩⟩ := by
  refine ⟨by decide, ?_, writes_ok_replicate _, reads_ok_replicate _, ?_⟩
  · have h := run_calls_replicate 4294967296 0 0
    rw [Nat.zero_add] at h
    exact h
  · have hk0 : map_index index_map 0 = (0, index_map) := by decide
    rw [get_fifo_size_lane
      (f := ⟨[List.replicate 4294967296 0, [], [], []], true,
        [false, false, false, false], 15⟩)
      (q := List.replicate 4294967296 0) hk0 (List.getElem?_cons_zero ..),
      List.length_replicate, Nat.mod_self]

/-- C19, amended: for a capacity `1 ≤ C < 2 ^ 32`, a canonical offset `o` and any finite
sequence of writes to `o` and reads from `o` made after `mc_fifo_init` on a channel with four
lanes, every call returns, the size query for the lane then returns the number of writes that
returned true minus the number of reads that returned true, and the per-lane fullness query
returns true if and only if that size is `C`. -/
theorem C19_size_counts (C : Nat) (hC1 : 1 ≤ C) (hC : C < 2 ^ 32) (s0 : Mem) (o val : Nat)
    (cs : List LaneCall) (hm : index_map_ok s0.index_map) (h4 : four_lanes s0.fifo)
    (ho : o ∈ canonical) :
    ∃ s1 tr s2 n b, mc_fifo_init s0 = .ret () s1 ∧ run_calls C o cs val s1 = .ret tr s2 ∧
      get_fifo_size s2 o = .ret n s2 ∧
      reads_ok tr ≤ writes_ok tr ∧ n = writes_ok tr - reads_ok tr ∧
      get_fifo_full s2 true o = .ret b s2 ∧ (b = true ↔ n = C) := by
  have hC2 : C < 4294967296 := by simpa using hC
  have hinit := mc_fifo_init_eq s0 h4
  have hinv := inv_init C hC1 hm hinit
  obtain ⟨tr, s2, q2, hrun, ⟨hm2, hi2, hl2⟩, hq2, hcount⟩ :=
    run_calls_lane C hC2 ho cs val _ [] hinv
      (by have := lane_lt_four ho; interval_cases h : o / 4 <;> simp)
  obtain ⟨q3, b, hq3, hb, hle, hiff⟩ := hl2 (o / 4) (lane_lt_four ho)
  rw [hq2] at hq3
  simp only [Option.some.injEq] at hq3
  subst hq3
  obtain ⟨m2, f2⟩ := s2
  simp only at hm2 hi2 hq2 hb
  have hk := map_index_ok hm2 ho
  have hmod : q2.length % 4294967296 = q2.length := Nat.mod_eq_of_lt (by omega)
  simp only [List.length_nil, Nat.zero_add] at hcount
  refine ⟨_, tr, ⟨m2, f2⟩, q2.length, b, hinit, hrun, ?_, by omega, by omega, ?_, hiff⟩
  · rw [get_fifo_size_lane hk hq2, hmod]
  · exact get_fifo_full_lane hk hb

/-- Witness of C19: capacity 2, offset 4, the calls write 1, write 2, write 3, read, read. -/
theorem C19_size_counts_witness :
    ∃ s1 tr s2 n b,
      mc_fifo_init ⟨index_map, ⟨[[9], [], [], []], false, [true, false, false, false], 0⟩⟩ =
        .ret () s1 ∧
      run_calls 2 4
        [LaneCall.write 1, LaneCall.write 2, LaneCall.write 3, LaneCall.read, LaneCall.read]
        0 s1 = .ret tr s2 ∧
      get_fifo_size s2 4 = .ret n s2 ∧
      reads_ok tr ≤ writes_ok tr ∧ n = writes_ok tr - reads_ok tr ∧
      get_fifo_full s2 true 4 = .ret b s2 ∧ (b = true ↔ n = 2) :=
  C19_size_counts 2 (by decide) (by decide)
    ⟨index_map, ⟨[[9], [], [], []], false, [true, false, false, false], 0⟩⟩ 4 0
    [LaneCall.write 1, LaneCall.write 2, LaneCall.write 3, LaneCall.read, LaneCall.read]
    (by decide) (by decide) (by decide)

/-- C20: for every capacity `1 ≤ C`, in an initialised channel whose lane `o / 4` of a
canonical offset `o` is empty with its flag false, a write of `v` to `o` returns true, and
the read from `o` that follows returns true with the word `v` and leaves the memory (all
queues, all flags, credits, init flag, index map) exactly as it was before the write. -/
theorem C20_write_read_round_trip (C : Nat) (hC : 1 ≤ C) (s : Mem) (o v val : Nat)
    (hm : index_map_ok s.index_map) (ho : o ∈ canonical) (hi : s.fifo.init = true)
    (hq : s.fifo.fifo[o / 4]? = some []) (hb : s.fifo.full[o / 4]? = some false) :
    ∃ s1, fifo_write C s o v = .ret true s1 ∧ fifo_read C s1 o val = .ret (true, v) s := by
  obtain ⟨m, ff, fi, fl, fc⟩ := s
  simp only at hm hi hq hb
  subst hi
  have hk := map_index_ok hm ho
  have hlq : o / 4 < ff.length := (List.getElem?_eq_some.1 hq).1
  have hlf : o / 4 < fl.length := (List.getElem?_eq_some.1 hb).1
  have hw := fifo_write_lane (f := ⟨ff, true, fl, fc⟩) C v hk rfl hq hb
  simp only [Bool.false_eq_true, if_false, List.nil_append, List.length_nil, Nat.zero_add] at hw
  refine ⟨_, hw, ?_⟩
  rw [fifo_read_lane (q := [v]) C val hk rfl (by simp [List.getElem?_set, hlq])
    (by simpa using hlf)]
  have hC0 : ¬ (0 = C) := by omega
  simp [List.set_set, list_set_self ff _ _ hq, list_set_self fl _ _ hb, hC0]

/-- Witness of C20: capacity 1, offset 8, on a channel whose other lanes hold words. -/
theorem C20_write_read_round_trip_witness :
    ∃ s1,
      fifo_write 1 ⟨index_map, ⟨[[1], [2], [], []], true, [true, true, false, false], 15⟩⟩
        8 7 = .ret true s1 ∧
      fifo_read 1 s1 8 0 =
        .ret (true, 7) ⟨index_map, ⟨[[1], [2], [], []], true, [true, true, false, false], 15⟩⟩ :=
  C20_write_read_round_trip 1 (by decide)
    ⟨index_map, ⟨[[1], [2], [], []], true, [true, true, false, false], 15⟩⟩ 8 7 0
    (by decide) (by decide) rfl (by decide) (by decide)

end Dromajo
